import Mathlib

/-!
Verification of the discovery-and-scoring pipeline of relevadorCPC
(src/relevador.py, class BuscadorUniversidades).

The Python code is shallowly embedded over List Char (Python str values).
Network effects (requests.get, the Google results page, urllib.parse.urljoin)
are abstracted into an explicit environment record; everything the class
itself computes is translated function by function from the source.
-/

/-- Models Python str.lower restricted to the ASCII and Latin-1 letter
ranges (the only characters occurring in the vocabularies and inputs of
relevador.py): sends A..Z and À..Þ (except ×) to their lowercase forms,
everything else unchanged. -/
def lowerChar (c : Char) : Char :=
  if 'A' ≤ c ∧ c ≤ 'Z' then Char.ofNat (c.toNat + 32)
  else if 0xC0 ≤ c.toNat ∧ c.toNat ≤ 0xDE ∧ c.toNat ≠ 0xD7 then Char.ofNat (c.toNat + 32)
  else c

/-- The ASCII whitespace characters that Python str.split (no argument)
splits on, which is also the ASCII part of the regex class backslash-s. -/
def isSpc (c : Char) : Bool :=
  c = ' ' || c = '\t' || c = '\n' || c = '\r' || c = '\x0b' || c = '\x0c'

/-- Worker for words, driven by a fuel argument that bounds the number of
runs consumed; each step strips at least one character, so fuel equal to
the length of the string never runs out and the zero-fuel branch is
unreachable (wordsGo_fuel below shows the result does not depend on the
fuel once it is at least the length). -/
def wordsGo : Nat → List Char → List (List Char)
  | _, [] => []
  | 0, _ => []
  | fuel + 1, c :: cs =>
    if isSpc c then wordsGo fuel cs
    else (c :: cs.takeWhile (fun x => !isSpc x)) :: wordsGo fuel (cs.dropWhile (fun x => !isSpc x))

/-- Models Python s.split() (no argument): the maximal runs of
non-whitespace characters of s, in order, with no empty runs. -/
def words (s : List Char) : List (List Char) :=
  wordsGo s.length s

/-- Models Python chr(32).join(pieces): the pieces separated by single
spaces. -/
def joinSp (ws : List (List Char)) : List Char :=
  match ws with
  | [] => []
  | [w] => w
  | w :: ws => w ++ ' ' :: joinSp ws

/-- Models Python chr(32).join(s.split()): collapse every whitespace run
to a single space and strip the ends. -/
def collapse (s : List Char) : List Char :=
  joinSp (words s)

/-- A term is in normal whitespace form when it is exactly the single-space
join of its own nonempty word list: no leading or trailing whitespace and
single spaces inside.  Every validation term of the catalog satisfies this
(checked by decide where needed). -/
def NormalTermino (t : List Char) : Prop :=
  words t ≠ [] ∧ joinSp (words t) = t

instance (t : List Char) : Decidable (NormalTermino t) :=
  inferInstanceAs (Decidable (_ ∧ _))

/-- The positions j of s at which the character list t occurs, ascending. -/
def occPositions (s t : List Char) : List Nat :=
  (List.range (s.length + 1)).filter (fun j => List.isPrefixOf t (s.drop j))

/-- Models lines 456-458 of relevador.py: the first match of the regex
quantifier dot 0-100, escaped lowered term, dot 0-100 with DOTALL over the
lowered text, as returned by re.findall(...)[0].  With j0 the first
occurrence of t, the leftmost match starts at i = max(0, j0 - 100); the
greedy leading quantifier then uses the last occurrence jp with jp ≤ i + 100,
and the trailing quantifier extends up to 100 characters past it. -/
def contextoRaw (s t : List Char) : List Char :=
  match occPositions s t with
  | [] => []
  | j0 :: _ =>
    let i := j0 - 100
    let jp := (((occPositions s t).filter (fun j => j ≤ i + 100)).getLast?).getD j0
    (s.take (jp + t.length + 100)).drop i

/-- Models the replace of linefeed and tab by spaces on line 461 of
relevador.py (applied before the split/join collapse). -/
def replaceNlTab (s : List Char) : List Char :=
  (s.map (fun c => if c = '\n' then ' ' else c)).map (fun c => if c = '\t' then ' ' else c)

/-- One matched term with its context, the dict appended on line 464 of
relevador.py. -/
structure TermHit where
  termino : List Char
  contexto : List Char
deriving DecidableEq

/-- Embeds buscar_terminos_en_texto (relevador.py lines 449-469).  The
re.findall call always finds a match when the lowered term is a substring
of the lowered text (the quantifiers admit empty context), so the
`if matches` guard of line 460 coincides with the line 455 membership test. -/
def buscar_terminos_en_texto (texto : List Char) (terminos : List (List Char)) : List TermHit :=
  let texto_lower := texto.map lowerChar
  terminos.filterMap (fun termino =>
    let tl := termino.map lowerChar
    if occPositions texto_lower tl ≠ [] then
      let contexto := collapse (replaceNlTab (contextoRaw texto_lower tl))
      some { termino := termino
             contexto := if 300 < contexto.length then contexto.take 300 ++ ['.', '.', '.']
                         else contexto }
    else none)

/-- The three thematic categories. -/
inductive Categoria where
  | ciencia_abierta
  | comunicacion_publica
  | diplomacia_cientifica
deriving DecidableEq

/-- The fixed category iteration order of ejecutar_busqueda_completa
(line 480 of relevador.py). -/
def categorias : List Categoria :=
  [Categoria.ciencia_abierta, Categoria.comunicacion_publica, Categoria.diplomacia_cientifica]

/-- The category-id strings used as dict keys in relevador.py. -/
def nombreCategoria : Categoria → List Char
  | Categoria.ciencia_abierta => "ciencia_abierta".data
  | Categoria.comunicacion_publica => "comunicacion_publica".data
  | Categoria.diplomacia_cientifica => "diplomacia_cientifica".data

/-- self.terminos_busqueda_universidades (relevador.py lines 51-103). -/
def terminos_busqueda_universidades : Categoria → List (List Char)
  | Categoria.ciencia_abierta =>
    [ "universidad ciencia abierta".data, "universitat ciència oberta".data,
      "universidad datos abiertos".data, "universidad acceso abierto".data,
      "universidad investigación abierta".data,
      "university open science".data, "university open data".data,
      "university open access".data, "university open research".data,
      "university fair data".data,
      "universitat ciència oberta".data, "universitat dades obertes".data,
      "universitat accés obert".data,
      "universidade ciência aberta".data, "universidade dados abertos".data,
      "universidade acesso aberto".data,
      "université science ouverte".data, "université données ouvertes".data,
      "université accès libre".data,
      "università scienza aperta".data, "università dati aperti".data,
      "università accesso aperto".data ]
  | Categoria.comunicacion_publica =>
    [ "universidad comunicación científica".data, "universidad divulgación científica".data,
      "universidad comunicación pública ciencia".data, "universidad outreach científico".data,
      "university science communication".data, "university public engagement science".data,
      "university science outreach".data, "university public understanding science".data,
      "universitat comunicació científica".data, "universitat divulgació científica".data,
      "universitat comunicació pública ciència".data,
      "universidade comunicação científica".data, "universidade divulgação científica".data,
      "universidade comunicação pública ciência".data,
      "université communication scientifique".data, "université vulgarisation scientifique".data,
      "université communication publique science".data,
      "università comunicazione scientifica".data, "università divulgazione scientifica".data ]
  | Categoria.diplomacia_cientifica =>
    [ "universidad diplomacia científica".data, "universidad cooperación internacional científica".data,
      "universidad política científica".data, "universidad ciencia global".data,
      "university science diplomacy".data, "university scientific diplomacy".data,
      "university international scientific cooperation".data, "university global science".data,
      "universitat diplomàcia científica".data, "universitat cooperació internacional científica".data,
      "universidade diplomacia científica".data, "universidade cooperação internacional científica".data,
      "université diplomatie scientifique".data, "université coopération internationale scientifique".data,
      "università diplomazia scientifica".data, "università cooperazione internazionale scientifica".data ]

/-- self.terminos_validacion (relevador.py lines 106-163), the validation
vocabularies scanned by buscar_terminos_en_texto.  Note the duplicated
entries of the diplomacia_cientifica list, which are duplicated in the
source too ("diplomacia científica" under Español and Portugués, and
"política científica" under Español, Catalán and Portugués). -/
def terminos_validacion : Categoria → List (List Char)
  | Categoria.ciencia_abierta =>
    [ "ciencia abierta".data, "datos abiertos".data, "acceso abierto".data,
      "investigación abierta".data, "repositorio institucional".data, "datos fair".data,
      "investigación reproducible".data,
      "open science".data, "open data".data, "open access".data, "open research".data,
      "fair data".data, "institutional repository".data, "reproducible research".data,
      "transparent research".data,
      "ciència oberta".data, "dades obertes".data, "accés obert".data,
      "investigació oberta".data, "repositori institucional".data,
      "investigació reproductible".data,
      "ciência aberta".data, "dados abertos".data, "acesso aberto".data,
      "pesquisa aberta".data, "repositório institucional".data, "pesquisa reproduzível".data,
      "science ouverte".data, "données ouvertes".data, "accès libre".data,
      "recherche ouverte".data, "dépôt institutionnel".data, "recherche reproductible".data,
      "scienza aperta".data, "dati aperti".data, "accesso aperto".data,
      "ricerca aperta".data, "repository istituzionale".data, "ricerca riproducibile".data ]
  | Categoria.comunicacion_publica =>
    [ "comunicación científica".data, "divulgación científica".data,
      "comunicación pública de la ciencia".data, "cultura científica".data,
      "alfabetización científica".data, "museo de la ciencia".data,
      "science communication".data, "public engagement".data, "science outreach".data,
      "science literacy".data, "public understanding of science".data, "science museum".data,
      "science culture".data,
      "comunicació científica".data, "divulgació científica".data,
      "comunicació pública de la ciència".data, "cultura científica".data,
      "museu de la ciència".data,
      "comunicação científica".data, "divulgação científica".data,
      "comunicação pública da ciência".data, "cultura científica".data,
      "museu de ciência".data,
      "communication scientifique".data, "vulgarisation scientifique".data,
      "culture scientifique".data, "musée de science".data, "médiation scientifique".data,
      "comunicazione scientifica".data, "divulgazione scientifica".data,
      "cultura scientifica".data, "museo della scienza".data ]
  | Categoria.diplomacia_cientifica =>
    [ "diplomacia científica".data, "cooperación internacional científica".data,
      "política científica".data, "ciencia global".data,
      "relaciones internacionales científicas".data,
      "science diplomacy".data, "scientific diplomacy".data,
      "international scientific cooperation".data, "global science".data,
      "science policy".data, "international science relations".data,
      "diplomàcia científica".data, "cooperació internacional científica".data,
      "política científica".data,
      "diplomacia científica".data, "cooperação internacional científica".data,
      "política científica".data,
      "diplomatie scientifique".data, "coopération internationale scientifique".data,
      "politique scientifique".data,
      "diplomazia scientifica".data, "cooperazione internazionale scientifica".data,
      "politica scientifica".data ]

/-- The url patterns of es_universidad (relevador.py lines 222-225).  The
anchored regex for the edu suffix matches ".edu" at the end of the string,
before a final newline (Python re treats the dollar anchor that way), or
followed by a slash; the remaining patterns are plain substrings. -/
def patronesUrlHit (url_lower : List Char) : Bool :=
  (".edu".data.isSuffixOf url_lower || (".edu".data ++ ['\n']).isSuffixOf url_lower
      || occPositions url_lower (".edu/".data) ≠ [])
  || occPositions url_lower (".ac.".data) ≠ []
  || occPositions url_lower (".univ.".data) ≠ []
  || occPositions url_lower ("university".data) ≠ []
  || occPositions url_lower ("universidad".data) ≠ []
  || occPositions url_lower ("universitat".data) ≠ []
  || occPositions url_lower ("universidade".data) ≠ []
  || occPositions url_lower ("université".data) ≠ []
  || occPositions url_lower ("università".data) ≠ []
  || occPositions url_lower ("college".data) ≠ []
  || occPositions url_lower ("instituto".data) ≠ []

/-- The institutional title keywords of es_universidad (relevador.py
lines 236-239). -/
def palabras_universidad : List (List Char) :=
  [ "university".data, "universidad".data, "universitat".data, "universidade".data,
    "université".data, "università".data, "college".data, "instituto".data, "school".data ]

/-- Embeds es_universidad (relevador.py lines 216-245).  A Python None or
empty url is modelled by the empty list (both are falsy); the isinstance
check is vacuous in the embedding. -/
def es_universidad (url texto : List Char) : Bool :=
  if url = [] then false
  else
    let url_lower := url.map lowerChar
    if patronesUrlHit url_lower then true
    else if texto ≠ [] then
      palabras_universidad.any (fun palabra => occPositions (texto.map lowerChar) palabra ≠ [])
    else false

/-- Scheme splitting as performed by urllib.parse.urlparse: an initial
alphabetic character followed by alphanumerics, plus, minus or dot up to a
colon.  Returns the scheme and the remainder after the colon. -/
def isSchemeChar (c : Char) : Bool :=
  c.isAlpha || c.isDigit || c = '+' || c = '-' || c = '.'

/-- Splits off the url scheme when present, modelling urllib.parse. -/
def splitScheme (u : List Char) : Option (List Char × List Char) :=
  let pre := u.takeWhile (fun c => c ≠ ':')
  if pre.length < u.length then
    match pre with
    | [] => none
    | c :: _ =>
      if c.isAlpha ∧ pre.all isSchemeChar then some (pre, u.drop (pre.length + 1))
      else none
  else none

/-- Models urllib.parse.urlparse(u).netloc: when the string left after an
optional scheme starts with two slashes, the characters up to the next
slash, question mark or hash; otherwise the empty string. -/
def netloc (u : List Char) : List Char :=
  let rest := match splitScheme u with
    | some (_, r) => r
    | none => u
  if "//".data.isPrefixOf rest then
    (rest.drop 2).takeWhile (fun c => c ≠ '/' ∧ c ≠ '?' ∧ c ≠ '#')
  else []

/-- The directory part of the path of an absolute url: everything from the
end of the authority up to and including the last slash (used for
resolving relative references). -/
def dirOfPath (u : List Char) : List Char :=
  let rest := match splitScheme u with
    | some (_, r) => r
    | none => u
  let path := if "//".data.isPrefixOf rest then
      (rest.drop 2).dropWhile (fun c => c ≠ '/' ∧ c ≠ '?' ∧ c ≠ '#')
    else rest
  let path := path.takeWhile (fun c => c ≠ '?' ∧ c ≠ '#')
  (path.reverse.dropWhile (fun c => c ≠ '/')).reverse

/-- Modelled from urllib.parse.urljoin for the reference forms exercised
here: a reference with its own scheme is returned unchanged, a
network-path reference inherits the base scheme, an absolute path is
attached to the base authority, and a relative path replaces the last
segment of the base path; dot-segment normalization is not modelled (no
input in this development contains dot segments). -/
def urljoinModel (base href : List Char) : List Char :=
  if href = [] then base
  else
    match splitScheme href with
    | some _ => href
    | none =>
      match splitScheme base with
      | none => href
      | some (sch, _) =>
        if "//".data.isPrefixOf href then sch ++ ':' :: href
        else
          let root := sch ++ "://".data ++ netloc base
          if "/".data.isPrefixOf href then root ++ href
          else root ++ dirOfPath base ++ href

/-- Positions of s at which the marker matcher succeeds, ascending. -/
def markPositions (mark : List Char → Option Nat) (s : List Char) : List Nat :=
  (List.range (s.length + 1)).filter (fun j => (mark (s.drop j)).isSome)

/-- How many characters the marker at position m0 consumes; every marker
used here consumes at least one character and the max with one only
records that. -/
def markLen (mark : List Char → Option Nat) (s : List Char) (m0 : Nat) : Nat :=
  max ((mark (s.drop m0)).getD 1) 1

/-- Where the removed span of a match whose marker sits at m0 ends: past
the marker, everything up to the end of that line goes too. -/
def subEnd (mark : List Char → Option Nat) (s : List Char) (m0 : Nat) : Nat :=
  m0 + markLen mark s m0
    + ((s.drop (m0 + markLen mark s m0)).takeWhile (fun c => c ≠ '\n')).length

/-- Models Python re.sub of a pattern of the shape: optional whitespace,
a marker, then everything up to the end of the line, replaced by the empty
string, applied repeatedly left to right.  The leftmost match starts at
the first marker position backed up over the whitespace run straight
before it, and ends where the line of the last consumed character ends;
scanning resumes there.  The recursion is driven by a fuel argument
bounding the number of removals; every removal consumes at least one
character, so the initial fuel, the length of the string, never runs out
and the zero-fuel branch is unreachable. -/
def subToEolGo (mark : List Char → Option Nat) : Nat → List Char → List Char
  | _, [] => []
  | 0, s => s
  | fuel + 1, c :: s =>
    match markPositions mark (c :: s) with
    | [] => c :: s
    | m0 :: _ =>
      let start := m0 - (((c :: s).take m0).reverse.takeWhile isSpc).length
      (c :: s).take start ++ subToEolGo mark fuel (s.drop (subEnd mark (c :: s) m0 - 1))

def subToEol (mark : List Char → Option Nat) (s : List Char) : List Char :=
  subToEolGo mark s.length s

/-- The marker of the first re.sub of limpiar_nombre_universidad
(relevador.py line 280): a hyphen, optional whitespace, then the words
google search case-insensitively; thirteen characters of marker text. -/
def markGoogle : List Char → Option Nat := fun s =>
  match s with
  | '-' :: r =>
    if ("google search".data).isPrefixOf ((r.dropWhile isSpc).map lowerChar) then
      some (1 + (r.takeWhile isSpc).length + 13)
    else none
  | _ => none

/-- The marker of the second re.sub (line 281): a pipe with its trailing
whitespace (the pattern has a whitespace quantifier after the pipe, so the
removed span continues past newlines inside that run). -/
def markPipe : List Char → Option Nat := fun s =>
  match s with
  | '|' :: r => some (1 + (r.takeWhile isSpc).length)
  | _ => none

/-- The marker of the third re.sub (line 282): a single right-pointing
angle quotation mark. -/
def markAngle : List Char → Option Nat := fun s =>
  match s with
  | '›' :: _ => some 1
  | _ => none

/-- Models Python str.strip() for the ASCII whitespace characters. -/
def pyStrip (s : List Char) : List Char :=
  ((s.dropWhile isSpc).reverse.dropWhile isSpc).reverse

/-- Embeds limpiar_nombre_universidad (relevador.py lines 274-288). -/
def limpiar_nombre_universidad (texto : List Char) : Option (List Char) :=
  if texto = [] then none
  else
    let t1 := subToEol markGoogle texto
    let t2 := subToEol markPipe t1
    let t3 := subToEol markAngle t2
    let t4 := if 100 < t3.length then t3.take 100 ++ ['.', '.', '.'] else t3
    some (pyStrip t4)

/-- The country-suffix table of determinar_pais_por_dominio (relevador.py
lines 296-304), in dict insertion order. -/
def dominios_pais : List (List Char × List Char) :=
  [ (".es".data, "España".data), (".edu".data, "Estados Unidos".data),
    (".uk".data, "Reino Unido".data), (".ca".data, "Canadá".data),
    (".au".data, "Australia".data), (".de".data, "Alemania".data),
    (".fr".data, "Francia".data), (".it".data, "Italia".data),
    (".br".data, "Brasil".data), (".ar".data, "Argentina".data),
    (".mx".data, "México".data), (".cl".data, "Chile".data),
    (".co".data, "Colombia".data), (".pe".data, "Perú".data),
    (".jp".data, "Japón".data), (".cn".data, "China".data),
    (".in".data, "India".data), (".nl".data, "Países Bajos".data),
    (".ch".data, "Suiza".data), (".se".data, "Suecia".data),
    (".no".data, "Noruega".data) ]

/-- Embeds determinar_pais_por_dominio (relevador.py lines 290-310). -/
def determinar_pais_por_dominio (dominio : List Char) : List Char :=
  if dominio = [] then "Desconocido".data
  else
    match dominios_pais.find? (fun par => par.1.isSuffixOf dominio) with
    | some par => par.2
    | none => "Internacional".data

/-- A candidate university record; the Python dicts carry the keys
nombre, url, pais always, and dominio, texto_original, idioma,
categoria_encontrada, termino_busqueda only when set, which the Option
fields model (dict equality then coincides with structure equality). -/
structure Universidad where
  nombre : List Char
  url : List Char
  pais : List Char
  dominio : Option (List Char) := none
  texto_original : Option (List Char) := none
  idioma : Option (List Char) := none
  categoria_encontrada : Option (List Char) := none
  termino_busqueda : Option (List Char) := none
deriving DecidableEq

/-- self.universidad_control (relevador.py lines 43-48). -/
def universidad_control : Universidad :=
  { nombre := "Universitat Jaume I".data
    url := "https://www.uji.es".data
    pais := "España".data
    idioma := some "Catalán/Español".data }

/-- Embeds extraer_info_universidad (relevador.py lines 247-272): only
urls literally starting with http are kept; the cleaned search text (or,
when it cleans to nothing, the domain) becomes the name. -/
def extraer_info_universidad (url texto : List Char) : Option Universidad :=
  if "http".data.isPrefixOf url then
    let domain := netloc url
    let nombre := match limpiar_nombre_universidad texto with
      | some n => if n = [] then domain else n
      | none => domain
    some { nombre := nombre
           url := url
           pais := determinar_pais_por_dominio domain
           dominio := some domain
           texto_original := some (texto.take 200) }
  else none

/-- A fetched page as seen through BeautifulSoup: the lang attribute of a
truthy html element when present, the get_text() result, and the anchor
elements as pairs of raw href attribute and anchor text. -/
structure Page where
  htmlLang : Option (List Char)
  text : List Char
  enlaces : List (List Char × List Char)
deriving DecidableEq

/-- An HTTP response as consumed by analizar_universidad: the status code,
the Content-Type header (which the Python code never reads), and the
parsed page.  A transport failure (timeout, DNS error, connection reset,
any requests exception) is modelled as the absence of a response. -/
structure FetchResp where
  status : Nat
  contentType : List Char
  page : Page
deriving DecidableEq

/-- The external world of one run: the Google results page for a query
(the anchor href and text pairs the scraper loops over, empty when the
search request fails or returns a non-200 status), the fetcher, and
urllib.parse.urljoin. -/
structure Env where
  google : List Char → List (List Char × List Char)
  fetch : List Char → Option FetchResp
  ujoin : List Char → List Char → List Char

/-- The per-language keyword table of detectar_idioma (relevador.py lines
401-408), in dict insertion order. -/
def idiomas_palabras : List (List Char × List (List Char)) :=
  [ ("español".data,
      ["universidad".data, "investigación".data, "ciencia".data, "estudiantes".data, "facultad".data]),
    ("catalán".data,
      ["universitat".data, "investigació".data, "ciència".data, "estudiants".data, "facultat".data]),
    ("inglés".data,
      ["university".data, "research".data, "science".data, "students".data, "faculty".data]),
    ("portugués".data,
      ["universidade".data, "pesquisa".data, "ciência".data, "estudantes".data, "faculdade".data]),
    ("francés".data,
      ["université".data, "recherche".data, "science".data, "étudiants".data, "faculté".data]),
    ("italiano".data,
      ["università".data, "ricerca".data, "scienza".data, "studenti".data, "facoltà".data]) ]

/-- The keyword-vote scores of detectar_idioma (lines 410-413), in dict
insertion order. -/
def votos (texto : List Char) : List (List Char × Nat) :=
  idiomas_palabras.map (fun par =>
    (par.1, (par.2.filter (fun palabra => occPositions texto palabra ≠ [])).length))

/-- Models Python max(iterable, key) over a nonempty sequence: the first
element whose key no later element strictly exceeds. -/
def pyMax (l : List (List Char × Nat)) : Option (List Char × Nat) :=
  l.foldl (fun acc x =>
    match acc with
    | none => some x
    | some b => if b.2 < x.2 then some x else some b) none

/-- The tie rule of the spec, stated in its words: the first entry whose
count no entry of the list exceeds. -/
def primeroEnMaximo (l : List (List Char × Nat)) : Option (List Char × Nat) :=
  l.find? (fun x => l.all (fun y => y.2 ≤ x.2))

/-- Embeds detectar_idioma (relevador.py lines 391-418).  When BeautifulSoup
finds a truthy html element carrying a lang attribute its value is returned
at once; otherwise the keyword vote runs over the lowered text.  The scores
dict always has six entries, so the Desconocido fallback of line 418 is dead
code, kept for faithfulness. -/
def detectar_idioma (page : Page) : List Char :=
  match page.htmlLang with
  | some l => l
  | none =>
    let texto := page.text.map lowerChar
    match pyMax (votos texto) with
    | some m => m.1
    | none => "Desconocido".data

/-- The relevance keyword list of encontrar_paginas_relevantes
(relevador.py lines 425-432); the source lists política twice and the
duplicate is kept. -/
def palabras_clave : List (List Char) :=
  [ "research".data, "investigación".data, "investigació".data, "pesquisa".data,
    "recherche".data, "ricerca".data,
    "science".data, "ciencia".data, "ciència".data, "ciência".data, "scienza".data,
    "open".data, "abierto".data, "obert".data, "aberto".data, "ouvert".data, "aperto".data,
    "communication".data, "comunicación".data, "comunicació".data, "comunicação".data,
    "comunicazione".data,
    "outreach".data, "divulgación".data, "divulgació".data, "divulgação".data,
    "policy".data, "política".data, "política".data, "politique".data, "politica".data ]

/-- Embeds encontrar_paginas_relevantes (relevador.py lines 420-447).  The
keyword test runs on the lowered href and anchor text; the kept url is the
join of the base url with the raw href, subject to not being present
already, the list holding fewer than fifteen entries, and having the same
netloc as the base url. -/
def encontrar_paginas_relevantes (ujoin : List Char → List Char → List Char)
    (enlaces : List (List Char × List Char)) (base_url : List Char) : List (List Char) :=
  enlaces.foldl (fun urls_relevantes par =>
    let href := par.1.map lowerChar
    let texto := par.2.map lowerChar
    if palabras_clave.any (fun palabra =>
        occPositions href palabra ≠ [] || occPositions texto palabra ≠ []) then
      let url_completa := ujoin base_url par.1
      if url_completa ∉ urls_relevantes ∧ urls_relevantes.length < 15
          ∧ netloc url_completa = netloc base_url then
        urls_relevantes ++ [url_completa]
      else urls_relevantes
    else urls_relevantes) []

/-- One category block of a scorecard (the three dicts initialized on
lines 323-325 of relevador.py). -/
structure CategoriaResultado where
  encontrado : Bool
  terminos : List TermHit
  score : Nat
deriving DecidableEq

/-- A site scorecard, the resultado dict of analizar_universidad
(relevador.py lines 314-328).  The wall-clock fecha_analisis field is not
modelled. -/
structure Resultado where
  nombre : List Char
  url : List Char
  pais : List Char
  categoria_encontrada : List Char
  termino_busqueda : List Char
  accesible : Bool
  idioma_detectado : List Char
  ciencia_abierta : CategoriaResultado
  comunicacion_publica : CategoriaResultado
  diplomacia_cientifica : CategoriaResultado
  contenido_muestra : List Char
  urls_analizadas : List (List Char)
deriving DecidableEq

/-- The freshly initialized scorecard of lines 314-328, also the value
returned whenever the primary fetch fails or yields a non-200 status. -/
def resultadoBase (u : Universidad) : Resultado :=
  { nombre := u.nombre
    url := u.url
    pais := u.pais
    categoria_encontrada := u.categoria_encontrada.getD ("Búsqueda".data)
    termino_busqueda := u.termino_busqueda.getD []
    accesible := false
    idioma_detectado := []
    ciencia_abierta := { encontrado := false, terminos := [], score := 0 }
    comunicacion_publica := { encontrado := false, terminos := [], score := 0 }
    diplomacia_cientifica := { encontrado := false, terminos := [], score := 0 }
    contenido_muestra := []
    urls_analizadas := [] }

/-- Embeds analizar_universidad (relevador.py lines 312-389).  The only
statement under the try block that can raise is the primary requests.get,
modelled by a missing fetch result; on any non-200 status the initialized
scorecard is returned untouched.  On status 200 the page text is sampled,
the language detected, up to three relevant same-domain links fetched
(failures and non-200 responses silently skipped, line 359), and the three
validation vocabularies scored over the accumulated text. -/
def analizar_universidad (env : Env) (u : Universidad) : Resultado :=
  match env.fetch u.url with
  | none => resultadoBase u
  | some resp =>
    if resp.status = 200 then
      let texto_completo := resp.page.text
      let urls_relevantes := encontrar_paginas_relevantes env.ujoin resp.page.enlaces u.url
      let paso := (urls_relevantes.take 3).foldl
        (fun (acc : List Char × List (List Char)) url_adicional =>
          match env.fetch url_adicional with
          | some r2 =>
            if r2.status = 200 then (acc.1 ++ ' ' :: r2.page.text, acc.2 ++ [url_adicional])
            else acc
          | none => acc)
        ([], [u.url])
      let todo_contenido := texto_completo ++ ' ' :: paso.1
      let tCA := buscar_terminos_en_texto todo_contenido (terminos_validacion Categoria.ciencia_abierta)
      let tCP := buscar_terminos_en_texto todo_contenido (terminos_validacion Categoria.comunicacion_publica)
      let tDC := buscar_terminos_en_texto todo_contenido (terminos_validacion Categoria.diplomacia_cientifica)
      { resultadoBase u with
        accesible := true
        idioma_detectado := detectar_idioma resp.page
        contenido_muestra := texto_completo.take 500
        urls_analizadas := paso.2
        ciencia_abierta := { encontrado := 0 < tCA.length, terminos := tCA, score := tCA.length }
        comunicacion_publica := { encontrado := 0 < tCP.length, terminos := tCP, score := tCP.length }
        diplomacia_cientifica := { encontrado := 0 < tDC.length, terminos := tDC, score := tDC.length } }
    else resultadoBase u

/-- Embeds analizar_universidad_control (relevador.py lines 471-473). -/
def analizar_universidad_control (env : Env) : Resultado :=
  analizar_universidad env universidad_control

/-- Models the url extraction of lines 192-194: Python
href.split(sep)[1].split(amp)[0], that is the text between the first two
occurrences of the separator, cut at the first ampersand. -/
def splitFirst (pat s : List Char) : Option (List Char × List Char) :=
  match occPositions s pat with
  | [] => none
  | j :: _ => some (s.take j, s.drop (j + pat.length))

/-- Embeds the Google result-link extraction of buscar_universidades_google
(lines 191-194): links lacking the redirect separator are skipped. -/
def extraer_url_real (href : List Char) : Option (List Char) :=
  match splitFirst ("/url?q=".data) href with
  | none => none
  | some (_, after) =>
    let seg := match splitFirst ("/url?q=".data) after with
      | some par => par.1
      | none => after
    some (seg.takeWhile (fun c => c ≠ '&'))

/-- The inner result-link loop of buscar_universidades_google (lines
190-205).  The membership test of line 199 compares the freshly extracted
dict, which does not yet carry the categoria_encontrada and
termino_busqueda keys, against stored dicts that do, so it never fires;
both keys are set after the test, as in the source.  Reaching
max_resultados breaks out of this loop only. -/
def procesar_enlaces (enlaces : List (List Char × List Char)) (categoria termino : List Char)
    (max_resultados : Nat) (acc : List Universidad) : List Universidad :=
  match enlaces with
  | [] => acc
  | (href, texto) :: rest =>
    match extraer_url_real href with
    | none => procesar_enlaces rest categoria termino max_resultados acc
    | some url_real =>
      if es_universidad url_real texto then
        match extraer_info_universidad url_real texto with
        | none => procesar_enlaces rest categoria termino max_resultados acc
        | some info =>
          if info ∈ acc then procesar_enlaces rest categoria termino max_resultados acc
          else
            let acc2 := acc ++
              [{ info with categoria_encontrada := some categoria, termino_busqueda := some termino }]
            if max_resultados ≤ acc2.length then acc2
            else procesar_enlaces rest categoria termino max_resultados acc2
      else procesar_enlaces rest categoria termino max_resultados acc

/-- Embeds buscar_universidades_google (relevador.py lines 174-214): only
the first five query terms are searched (line 178); a failed or non-200
search contributes no links; the per-term sleep has no observable effect. -/
def buscar_universidades_google (env : Env) (terminos_categoria : List (List Char))
    (categoria : List Char) (max_resultados : Nat) : List Universidad :=
  (terminos_categoria.take 5).foldl
    (fun acc termino => procesar_enlaces (env.google termino) categoria termino max_resultados acc)
    []

/-- The candidate accumulation of ejecutar_busqueda_completa (lines
490-501): per category the Google search runs with max_resultados ten, and
each found university is appended unless some already accumulated
candidate has the same url string. -/
def universidades_encontradas (env : Env) : List Universidad :=
  categorias.foldl (fun acc cat =>
    let universidades := buscar_universidades_google env
       (terminos_busqueda_universidades cat) (nombreCategoria cat) 10
    universidades.foldl (fun a u =>
      if a.any (fun v => v.url = u.url) then a else a ++ [u]) acc) []

/-- Embeds ejecutar_busqueda_completa (relevador.py lines 475-512): the
control institution is scanned first and its scorecard appended
unconditionally, then every accumulated candidate is scanned in order.
The progress callback and the sleeps are effect-free and not modelled. -/
def ejecutar_busqueda_completa (env : Env) : List Resultado :=
  analizar_universidad_control env :: (universidades_encontradas env).map (analizar_universidad env)

/-- The search queries ejecutar_busqueda_completa hands to the Search
Provider: reading lines 178-182 and 495-496 off, exactly the first five
terms of each category's query vocabulary are interpolated into the Google
url, independently of every search and scan outcome. -/
def consultas_emitidas : List (List Char) :=
  categorias.flatMap (fun cat => (terminos_busqueda_universidades cat).take 5)

/-- Environment transformer rewriting only the Content-Type header of every
response, used to state that analizar_universidad never reads it. -/
def setCT (f : List Char → List Char) (env : Env) : Env :=
  { env with fetch := fun url =>
      (env.fetch url).map (fun r => { r with contentType := f r.contentType }) }

/-- A wiki url carrying a positive university signal, for claim C2. -/
def urlWiki : List Char := "https://en.wikipedia.org/wiki/university".data

/-- A blog-platform url carrying a positive university signal. -/
def urlBlog : List Char := "http://university.blogspot.com/post".data

/-- The anchor elements of end-to-end scenario 4 of the spec: one relative
research link and one external research link. -/
def scenLinks : List (List Char × List Char) :=
  [ ("/research/open-data".data, "Open Data Policy".data),
    ("https://otherdomain.com/research".data, "Research".data) ]

/-- A page with no html lang attribute whose text votes for catalán. -/
def pageVote : Page :=
  { htmlLang := none
    text := "universitat recerca ciència estudiants facultat".data
    enlaces := [] }

/-- A page parsed out of a pdf body, for claim C7. -/
def pagePdf : Page :=
  { htmlLang := none
    text := "open science report".data
    enlaces := [] }

/-- An environment whose only response is a status 200 pdf, for claim C7. -/
def envPdf : Env :=
  { google := fun _ => []
    fetch := fun _ => some { status := 200, contentType := "application/pdf".data, page := pagePdf }
    ujoin := urljoinModel }

/-- The site scanned in the claim C7 counterexample. -/
def uPdf : Universidad :=
  { nombre := "PDF Site".data, url := "https://pdf.example.edu".data, pais := "Internacional".data }

/-- An environment where every fetch returns status 404. -/
def env404 : Env :=
  { google := fun _ => []
    fetch := fun _ => some { status := 404, contentType := "text/html".data, page := pagePdf }
    ujoin := urljoinModel }

/-- The first query term of the ciencia_abierta category. -/
def q1 : List Char := "universidad ciencia abierta".data

/-- An environment whose Google results page for the first ciencia_abierta
query holds two result links on the same domain with different paths, for
claim C1. -/
def env0 : Env :=
  { google := fun q =>
      if q = q1 then
        [ ("/url?q=https://u1.example.edu/a&sa=U".data, "University A".data),
          ("/url?q=https://u1.example.edu/b&sa=U".data, "University B".data) ]
      else []
    fetch := fun _ => none
    ujoin := urljoinModel }

/-- An environment where every search is empty and every fetch fails, so
the control scorecard comes out all zero, for claim C3. -/
def env1 : Env :=
  { google := fun _ => []
    fetch := fun _ => none
    ujoin := urljoinModel }

/-- A variant of env1 with a different fetcher but the same search
results, for the claim C3 witness. -/
def env1b : Env :=
  { google := fun _ => []
    fetch := fun _ => some { status := 500, contentType := "text/html".data, page := pagePdf }
    ujoin := urljoinModel }

/-! ## General lemmas about occurrence positions -/

theorem prefOf_iff (t s : List Char) : List.isPrefixOf t s = true ↔ t <+: s :=
  List.isPrefixOf_iff_prefix

theorem mem_occPositions (s t : List Char) (j : Nat) :
    j ∈ occPositions s t ↔ j < s.length + 1 ∧ t <+: s.drop j := by
  simp [occPositions, List.mem_filter, List.mem_range, prefOf_iff]

theorem occPositions_ne_nil_iff (s t : List Char) :
    occPositions s t ≠ [] ↔ t <:+: s := by
  constructor
  · intro h
    obtain ⟨j, hj⟩ : ∃ j, j ∈ occPositions s t := by
      cases hh : occPositions s t with
      | nil => exact absurd hh h
      | cons a l => exact ⟨a, hh ▸ List.mem_cons_self a l⟩
    obtain ⟨-, u, hu⟩ := (mem_occPositions s t j).mp hj
    exact ⟨s.take j, u, by rw [List.append_assoc, hu, List.take_append_drop]⟩
  · rintro ⟨a, b, rfl⟩
    intro hnil
    have hmem : a.length ∈ occPositions (a ++ t ++ b) t := by
      rw [mem_occPositions]
      refine ⟨by simp; omega, ⟨b, ?_⟩⟩
      rw [List.append_assoc, List.drop_left]
    rw [hnil] at hmem
    exact List.not_mem_nil _ hmem

/-! ## Claim C4: an inaccessible scorecard is all zero -/

/-- Claim C4: for every site scan, if the returned scorecard has
accessible false (primary fetch missing, non-200 status, or transport
failure), then every category score is 0, every found flag is false, the
content sample is empty and no url was analyzed. -/
theorem C4_inaccesible_todo_cero (env : Env) (u : Universidad)
    (h : (analizar_universidad env u).accesible = false) :
    (analizar_universidad env u).ciencia_abierta.score = 0
    ∧ (analizar_universidad env u).comunicacion_publica.score = 0
    ∧ (analizar_universidad env u).diplomacia_cientifica.score = 0
    ∧ (analizar_universidad env u).ciencia_abierta.encontrado = false
    ∧ (analizar_universidad env u).comunicacion_publica.encontrado = false
    ∧ (analizar_universidad env u).diplomacia_cientifica.encontrado = false
    ∧ (analizar_universidad env u).contenido_muestra = []
    ∧ (analizar_universidad env u).urls_analizadas = [] := by
  unfold analizar_universidad at h ⊢
  cases henv : env.fetch u.url with
  | none => simp [henv, resultadoBase]
  | some resp =>
    simp only [henv] at h ⊢
    by_cases hs : resp.status = 200
    · simp [hs] at h
    · simp [hs, resultadoBase]

/-- Witness for claim C4: a concrete environment answering status 404
yields an inaccessible scorecard, so the theorem applies to it. -/
theorem C4_witness :
    (analizar_universidad env404 universidad_control).accesible = false
    ∧ ((analizar_universidad env404 universidad_control).ciencia_abierta.score = 0
       ∧ (analizar_universidad env404 universidad_control).comunicacion_publica.score = 0
       ∧ (analizar_universidad env404 universidad_control).diplomacia_cientifica.score = 0
       ∧ (analizar_universidad env404 universidad_control).ciencia_abierta.encontrado = false
       ∧ (analizar_universidad env404 universidad_control).comunicacion_publica.encontrado = false
       ∧ (analizar_universidad env404 universidad_control).diplomacia_cientifica.encontrado = false
       ∧ (analizar_universidad env404 universidad_control).contenido_muestra = []
       ∧ (analizar_universidad env404 universidad_control).urls_analizadas = []) :=
  ⟨by decide, C4_inaccesible_todo_cero env404 universidad_control (by decide)⟩

/-! ## Claim C9: the classifier is stable under url case changes -/

/-- Claim C9: es_universidad depends on the url only through its lowered
form, so any two case variants of a url classify identically for every
title text. -/
theorem C9_es_universidad_estable (u v t : List Char)
    (h : u.map lowerChar = v.map lowerChar) :
    es_universidad u t = es_universidad v t := by
  by_cases hu : u = []
  · have hv : v = [] := by
      have hlen := congrArg List.length h
      simp only [List.length_map] at hlen
      rw [hu] at hlen
      exact List.length_eq_zero.mp (by simpa using hlen.symm)
    rw [hu, hv]
  · have hv : v ≠ [] := by
      intro hveq
      apply hu
      have hlen := congrArg List.length h
      simp only [List.length_map] at hlen
      rw [hveq] at hlen
      exact List.length_eq_zero.mp (by simpa using hlen)
    simp only [es_universidad, hu, hv, if_false]
    rw [h]

/-- Witness for claim C9: the two urls of the spec example are case
variants of each other, and the theorem applies to them. -/
theorem C9_witness :
    ("HTTP://X.EDU".data.map lowerChar = "http://x.edu".data.map lowerChar)
    ∧ es_universidad ("HTTP://X.EDU".data) [] = es_universidad ("http://x.edu".data) [] :=
  ⟨by decide, C9_es_universidad_estable ("HTTP://X.EDU".data) ("http://x.edu".data) [] (by decide)⟩

/-! ## Claim C2: no blocklist in the classifier -/

/-- Counterexample to claim C2: the code applies no blocklist with
priority over positive signals.  This wiki url, whose domain contains
wikipedia — a blocklist entry under the spec — is accepted, because the
positive pattern university occurs in the url. -/
theorem C2_counterexample :
    es_universidad urlWiki [] = true
    ∧ occPositions (netloc urlWiki) ("wikipedia".data) ≠ [] := by
  constructor
  · decide
  · decide

/-- Claim C2 as amended: es_universidad consults no blocklist; any url
matching an institutional url pattern is accepted no matter what its
domain contains, and the url of the spec example is rejected only because
no positive signal fires on it (universities does not contain the
substring university, and no institutional keyword occurs in its title). -/
theorem C2_amended (url texto : List Char) (h1 : url ≠ [])
    (h2 : patronesUrlHit (url.map lowerChar) = true) :
    es_universidad url texto = true
    ∧ es_universidad ("https://ranking-universities.com/top100".data)
        ("Top Universities Ranking 2025".data) = false := by
  constructor
  · simp [es_universidad, h1, h2]
  · decide

/-- Witness for the amended claim C2: a blog-platform url with the
substring university matches a url pattern, hence is accepted. -/
theorem C2_amended_witness :
    (urlBlog ≠ [] ∧ patronesUrlHit (urlBlog.map lowerChar) = true)
    ∧ (es_universidad urlBlog ("Blog".data) = true
       ∧ es_universidad ("https://ranking-universities.com/top100".data)
           ("Top Universities Ranking 2025".data) = false) :=
  ⟨⟨by decide, by decide⟩, C2_amended urlBlog ("Blog".data) (by decide) (by decide)⟩

/-! ## Claim C7: the content type is never consulted -/

/-- Counterexample to claim C7: a status 200 response whose content type
is application/pdf is not skipped — its parsed text becomes the content
sample and is scored, contradicting the claim that a pdf response yields
empty text. -/
theorem C7_counterexample :
    (envPdf.fetch uPdf.url).map FetchResp.contentType = some ("application/pdf".data)
    ∧ (analizar_universidad envPdf uPdf).accesible = true
    ∧ (analizar_universidad envPdf uPdf).contenido_muestra = "open science report".data
    ∧ (analizar_universidad envPdf uPdf).ciencia_abierta.score = 1 := by
  refine ⟨by decide, by decide, by decide, by decide⟩

/-- Claim C7 as amended: analizar_universidad never reads the Content-Type
header; rewriting it arbitrarily on every response leaves every scorecard
unchanged, so any status 200 body — pdf or binary included — is parsed
and scored like html. -/
theorem C7_amended (f : List Char → List Char) (env : Env) (u : Universidad) :
    analizar_universidad (setCT f env) u = analizar_universidad env u := by
  have hfold : ∀ (l : List (List Char)) (a : List Char × List (List Char)),
      l.foldl (fun acc url_adicional =>
        match (setCT f env).fetch url_adicional with
        | some r2 => if r2.status = 200 then (acc.1 ++ ' ' :: r2.page.text, acc.2 ++ [url_adicional]) else acc
        | none => acc) a
      = l.foldl (fun acc url_adicional =>
        match env.fetch url_adicional with
        | some r2 => if r2.status = 200 then (acc.1 ++ ' ' :: r2.page.text, acc.2 ++ [url_adicional]) else acc
        | none => acc) a := by
    intro l a
    apply List.foldl_ext
    intro acc b _
    cases henv : env.fetch b with
    | none => simp [setCT, henv]
    | some r2 => simp [setCT, henv]
  unfold analizar_universidad
  cases henv : env.fetch u.url with
  | none => simp [setCT, henv]
  | some resp =>
    have hset : (setCT f env).fetch u.url
        = some { resp with contentType := f resp.contentType } := by
      simp [setCT, henv]
    rw [hset]
    have huj : (setCT f env).ujoin = env.ujoin := rfl
    by_cases hs : resp.status = 200
    · simp only [hs, if_true, huj, hfold]
    · simp [hs]

/-! ## Claim C1: deduplication granularity -/

/-- The url-deduplicating fold of lines 498-501 keeps the accumulated url
list duplicate free. -/
theorem dedup_fold_nodup (us acc : List Universidad)
    (h : (acc.map Universidad.url).Nodup) :
    ((us.foldl (fun a u => if a.any (fun v => v.url = u.url) then a else a ++ [u]) acc).map
      Universidad.url).Nodup := by
  induction us generalizing acc with
  | nil => simpa using h
  | cons u us ih =>
    simp only [List.foldl_cons]
    by_cases hany : acc.any (fun v => decide (v.url = u.url)) = true
    · rw [if_pos hany]
      exact ih acc h
    · rw [if_neg hany]
      apply ih
      rw [List.map_append, List.nodup_append]
      refine ⟨h, List.nodup_singleton _, ?_⟩
      intro x hx hx2
      simp only [List.map_cons, List.map_nil, List.mem_singleton] at hx2
      subst hx2
      obtain ⟨v, hv, hvu⟩ := List.mem_map.mp hx
      have : acc.any (fun v => decide (v.url = u.url)) = true :=
        List.any_eq_true.mpr ⟨v, hv, by simp [hvu]⟩
      exact hany this

/-- Counterexample to claim C1: in the environment env0 the first
ciencia_abierta query returns two candidates on the same domain with
different paths; both survive deduplication and both are scanned (the run
emits the control scorecard plus one scorecard for each). -/
theorem C1_counterexample :
    ((universidades_encontradas env0).map Universidad.url)
      = ["https://u1.example.edu/a".data, "https://u1.example.edu/b".data]
    ∧ ((universidades_encontradas env0).map (fun u => netloc u.url))
      = ["u1.example.edu".data, "u1.example.edu".data]
    ∧ (ejecutar_busqueda_completa env0).length = 3 := by
  refine ⟨by decide, by decide, by decide⟩

/-- Claim C1 as amended: candidates are deduplicated by exact url across
the whole run, not by domain: the accumulated candidate list never holds
two candidates with the same url string, while candidates sharing a domain
but differing in path all survive (as the counterexample shows). -/
theorem C1_amended (env : Env) :
    ((universidades_encontradas env).map Universidad.url).Nodup := by
  unfold universidades_encontradas
  simp only [categorias, List.foldl_cons, List.foldl_nil]
  apply dedup_fold_nodup
  apply dedup_fold_nodup
  apply dedup_fold_nodup
  simp

/-! ## Claim C3: no reinforcement search exists -/

/-- Counterexample to claim C3: in env1 the control scorecard comes out
with all three scores zero, yet the run consists of that single scorecard
and the fixed query set, none of whose queries is site restricted — no
reinforcement search is performed. -/
theorem C3_counterexample :
    (analizar_universidad_control env1).ciencia_abierta.score = 0
    ∧ (analizar_universidad_control env1).comunicacion_publica.score = 0
    ∧ (analizar_universidad_control env1).diplomacia_cientifica.score = 0
    ∧ (ejecutar_busqueda_completa env1).length = 1
    ∧ consultas_emitidas.all (fun q => decide (occPositions q ("site:".data) = [])) = true := by
  refine ⟨by decide, by decide, by decide, by decide, by decide⟩

/-- Claim C3 as amended: after the control scan the orchestrator proceeds
unconditionally — the first emitted scorecard is always the control scan,
the candidate accumulation depends on the search results alone (so the
control outcome cannot trigger any further search), and no query ever
handed to the search provider is site restricted. -/
theorem C3_amended (env env' : Env) (hg : env.google = env'.google) :
    (ejecutar_busqueda_completa env).head? = some (analizar_universidad env universidad_control)
    ∧ universidades_encontradas env = universidades_encontradas env'
    ∧ consultas_emitidas.all (fun q => decide (occPositions q ("site:".data) = [])) = true := by
  refine ⟨rfl, ?_, by decide⟩
  unfold universidades_encontradas buscar_universidades_google
  rw [hg]

/-- Witness for the amended claim C3: env1 and env1b share the search
function but differ in the fetcher, and the theorem applies to them. -/
theorem C3_amended_witness :
    (env1.google = env1b.google)
    ∧ ((ejecutar_busqueda_completa env1).head?
          = some (analizar_universidad env1 universidad_control)
       ∧ universidades_encontradas env1 = universidades_encontradas env1b
       ∧ consultas_emitidas.all (fun q => decide (occPositions q ("site:".data) = [])) = true) :=
  ⟨rfl, C3_amended env1 env1b rfl⟩

/-! ## Claim C10: language detection -/

theorem find?_congr_mem (p q : (List Char × Nat) → Bool) (l : List (List Char × Nat))
    (h : ∀ x ∈ l, p x = q x) : l.find? p = l.find? q := by
  induction l with
  | nil => rfl
  | cons a t ih =>
    have ha := h a (List.mem_cons_self a t)
    cases hq : q a with
    | true => simp [List.find?, ha, hq]
    | false =>
      simp only [List.find?, ha, hq]
      exact ih (fun x hx => h x (List.mem_cons_of_mem a hx))

theorem primeroEnMaximo_step (b y : List Char × Nat) (t : List (List Char × Nat)) :
    primeroEnMaximo (b :: y :: t) = primeroEnMaximo ((if b.2 < y.2 then y else b) :: t) := by
  by_cases hby : b.2 < y.2
  · rw [if_pos hby]
    unfold primeroEnMaximo
    have hpb : ((b :: y :: t).all (fun z => decide (z.2 ≤ b.2))) = false := by
      have : (decide (y.2 ≤ b.2)) = false := by simp; omega
      simp [List.all_cons, this]
    rw [List.find?_cons_of_neg _ (by simp [hpb])]
    apply find?_congr_mem
    intro x hx
    simp only [List.all_cons]
    by_cases hyx : y.2 ≤ x.2
    · have hbx : b.2 ≤ x.2 := by omega
      simp [hbx, hyx]
    · simp [hyx]
  · rw [if_neg hby]
    have hyb : y.2 ≤ b.2 := by omega
    unfold primeroEnMaximo
    have hp : ((b :: y :: t).all (fun z => decide (z.2 ≤ b.2)))
        = ((b :: t).all (fun z => decide (z.2 ≤ b.2))) := by
      have : (decide (y.2 ≤ b.2)) = true := by simp [hyb]
      simp [List.all_cons, this]
    by_cases hall : ((b :: t).all (fun z => decide (z.2 ≤ b.2))) = true
    · rw [List.find?_cons_of_pos _ (by simpa [hp] using hall)]
      refine (List.find?_cons_of_pos t ?_).symm
      exact hall
    · have hallf : ((b :: t).all (fun z => decide (z.2 ≤ b.2))) = false :=
        Bool.eq_false_iff.mpr hall
      have htf : (t.all (fun z => decide (z.2 ≤ b.2))) = false := by
        have hbb : (decide (b.2 ≤ b.2)) = true := by simp
        simpa [List.all_cons, hbb] using hallf
      have hyf : ((b :: y :: t).all (fun z => decide (z.2 ≤ y.2))) = false := by
        by_cases hby2 : b.2 ≤ y.2
        · have heq : y.2 = b.2 := by omega
          have : (t.all (fun z => decide (z.2 ≤ y.2))) = false := by
            rw [show (fun z : List Char × Nat => decide (z.2 ≤ y.2))
                  = (fun z : List Char × Nat => decide (z.2 ≤ b.2)) from funext (fun z => by rw [heq])]
            exact htf
          simp [List.all_cons, this]
        · have : (decide (b.2 ≤ y.2)) = false := by simp; omega
          simp [List.all_cons, this]
      rw [List.find?_cons_of_neg _ (by simp [hp, hallf]),
         List.find?_cons_of_neg _ (by simp [hyf]),
         List.find?_cons_of_neg _ (by simp [hallf])]
      apply find?_congr_mem
      intro x hx
      simp only [List.all_cons]
      by_cases hbx : b.2 ≤ x.2
      · have hyx : y.2 ≤ x.2 := by omega
        simp [hbx, hyx]
      · simp [hbx]

theorem pyMax_go (t : List (List Char × Nat)) : ∀ b,
    t.foldl (fun acc x =>
      match acc with
      | none => some x
      | some b => if b.2 < x.2 then some x else some b) (some b)
    = primeroEnMaximo (b :: t) := by
  induction t with
  | nil =>
    intro b
    simp [primeroEnMaximo, List.find?, List.all_cons]
  | cons y t ih =>
    intro b
    rw [List.foldl_cons]
    show List.foldl _ (if b.2 < y.2 then some y else some b) t = _
    rw [primeroEnMaximo_step]
    by_cases hby : b.2 < y.2
    · rw [if_pos hby, if_pos hby]
      exact ih y
    · rw [if_neg hby, if_neg hby]
      exact ih b

theorem pyMax_eq_primeroEnMaximo (l : List (List Char × Nat)) :
    pyMax l = primeroEnMaximo l := by
  cases l with
  | nil => rfl
  | cons b t =>
    unfold pyMax
    rw [List.foldl_cons]
    exact pyMax_go t b

theorem pyMax_isSome (t : List (List Char × Nat)) : ∀ b,
    ∃ v, t.foldl (fun acc x =>
      match acc with
      | none => some x
      | some b => if b.2 < x.2 then some x else some b) (some b) = some v := by
  induction t with
  | nil => intro b; exact ⟨b, rfl⟩
  | cons y t ih =>
    intro b
    rw [List.foldl_cons]
    show ∃ v, List.foldl _ (if b.2 < y.2 then some y else some b) t = some v
    by_cases hby : b.2 < y.2
    · rw [if_pos hby]; exact ih y
    · rw [if_neg hby]; exact ih b

/-- Claim C10: when the parsed page's html element carries a lang
attribute, detectar_idioma returns its value outright; only without the
attribute does the keyword vote run, and the winner is the first language
of the fixed order español, catalán, inglés, portugués, francés, italiano
whose keyword count no language exceeds. -/
theorem C10_detectar_idioma (page : Page) :
    (∀ l, page.htmlLang = some l → detectar_idioma page = l)
    ∧ (page.htmlLang = none →
        ∃ v, primeroEnMaximo (votos (page.text.map lowerChar)) = some v
          ∧ detectar_idioma page = v.1
          ∧ (votos (page.text.map lowerChar)).map Prod.fst
              = ["español".data, "catalán".data, "inglés".data,
                 "portugués".data, "francés".data, "italiano".data]) := by
  constructor
  · intro l hl
    simp [detectar_idioma, hl]
  · intro hn
    have hvs : ∃ v, pyMax (votos (page.text.map lowerChar)) = some v := by
      cases hv : votos (page.text.map lowerChar) with
      | nil => simp [votos, idiomas_palabras] at hv
      | cons a r =>
        unfold pyMax
        rw [List.foldl_cons]
        exact pyMax_isSome r a
    obtain ⟨v, hv⟩ := hvs
    refine ⟨v, ?_, ?_, ?_⟩
    · rw [← pyMax_eq_primeroEnMaximo]
      exact hv
    · simp [detectar_idioma, hn, hv]
    · simp [votos, idiomas_palabras]

/-- Witness for claim C10: a concrete page without a lang attribute, to
which the vote branch of the theorem applies. -/
theorem C10_witness :
    ∃ v, primeroEnMaximo (votos (pageVote.text.map lowerChar)) = some v
      ∧ detectar_idioma pageVote = v.1
      ∧ (votos (pageVote.text.map lowerChar)).map Prod.fst
          = ["español".data, "catalán".data, "inglés".data,
             "portugués".data, "francés".data, "italiano".data] :=
  (C10_detectar_idioma pageVote).2 rfl

/-! ## Claim C8: link discovery stays on the seed host -/

theorem splitScheme_https (r : List Char) :
    splitScheme ("https".data ++ ':' :: r) = some ("https".data, r) := by
  have ht : (("https".data ++ ':' :: r).takeWhile (fun c => c ≠ ':')) = "https".data := by
    simp [List.takeWhile_cons]
  simp only [splitScheme, ht]
  have hlen : ("https".data).length < (("https".data ++ ':' :: r)).length := by
    simp
  rw [if_pos hlen]
  simp [isSchemeChar]

theorem urljoinModel_hasScheme (base href : List Char)
    (hb : List.isPrefixOf ("https://".data) base = true) :
    (splitScheme (urljoinModel base href)).isSome = true := by
  obtain ⟨rest, hr⟩ := (prefOf_iff _ _).mp hb
  subst hr
  have hsb : splitScheme ("https://".data ++ rest) = some ("https".data, '/' :: '/' :: rest) := by
    have h1 : ("https://".data ++ rest) = "https".data ++ ':' :: ('/' :: '/' :: rest) := by
      simp
    rw [h1, splitScheme_https]
  unfold urljoinModel
  by_cases h0 : href = []
  · rw [if_pos h0, hsb]
    rfl
  · rw [if_neg h0]
    cases hsh : splitScheme href with
    | some par => simp [hsh]
    | none =>
      simp only [hsh, hsb]
      by_cases h2 : List.isPrefixOf ("//".data) href = true
      · simp only [h2, if_true]
        rw [splitScheme_https]
        rfl
      · rw [if_neg h2]
        by_cases h3 : List.isPrefixOf ("/".data) href = true
        · rw [if_pos h3]
          have h4 : ("https".data ++ "://".data ++ netloc ("https://".data ++ rest)) ++ href
              = "https".data ++ ':' :: ('/' :: '/' :: (netloc ("https://".data ++ rest) ++ href)) := by
            simp
          rw [h4, splitScheme_https]
          rfl
        · rw [if_neg h3]
          have h4 : ("https".data ++ "://".data ++ netloc ("https://".data ++ rest))
                ++ dirOfPath ("https://".data ++ rest) ++ href
              = "https".data ++ ':' :: ('/' :: '/' ::
                  (netloc ("https://".data ++ rest) ++ (dirOfPath ("https://".data ++ rest) ++ href))) := by
            simp
          rw [h4, splitScheme_https]
          rfl

theorem encontrar_paginas_mem (ujoin : List Char → List Char → List Char)
    (enlaces : List (List Char × List Char)) (base_url : List Char) :
    ∀ u ∈ encontrar_paginas_relevantes ujoin enlaces base_url,
      netloc u = netloc base_url ∧ ∃ href, u = ujoin base_url href := by
  unfold encontrar_paginas_relevantes
  suffices h : ∀ (acc : List (List Char)),
      (∀ u ∈ acc, netloc u = netloc base_url ∧ ∃ href, u = ujoin base_url href) →
      ∀ u ∈ enlaces.foldl (fun urls_relevantes par =>
          if palabras_clave.any (fun palabra =>
              occPositions (par.1.map lowerChar) palabra ≠ []
                || occPositions (par.2.map lowerChar) palabra ≠ []) then
            if ujoin base_url par.1 ∉ urls_relevantes ∧ urls_relevantes.length < 15
                ∧ netloc (ujoin base_url par.1) = netloc base_url then
              urls_relevantes ++ [ujoin base_url par.1]
            else urls_relevantes
          else urls_relevantes) acc,
        netloc u = netloc base_url ∧ ∃ href, u = ujoin base_url href by
    exact h [] (by simp)
  induction enlaces with
  | nil => intro acc hacc u hu; exact hacc u hu
  | cons par rest ih =>
    intro acc hacc u hu
    rw [List.foldl_cons] at hu
    by_cases hkw : palabras_clave.any (fun palabra =>
        occPositions (par.1.map lowerChar) palabra ≠ []
          || occPositions (par.2.map lowerChar) palabra ≠ []) = true
    · rw [if_pos hkw] at hu
      by_cases hc : ujoin base_url par.1 ∉ acc ∧ acc.length < 15
          ∧ netloc (ujoin base_url par.1) = netloc base_url
      · rw [if_pos hc] at hu
        refine ih (acc ++ [ujoin base_url par.1]) ?_ u hu
        intro v hv
        rcases List.mem_append.mp hv with hv1 | hv2
        · exact hacc v hv1
        · rw [List.mem_singleton.mp hv2]
          exact ⟨hc.2.2, par.1, rfl⟩
      · rw [if_neg hc] at hu
        exact ih acc hacc u hu
    · rw [if_neg hkw] at hu
      exact ih acc hacc u hu

/-- Claim C8: every link the discoverer returns has the same host as the
base url and, for an absolute https base, carries a scheme (is absolute);
on the page of end-to-end scenario 4 the relative research link resolves
into the base domain and the external research link is excluded. -/
theorem C8_enlaces_mismo_dominio :
    (∀ (enlaces : List (List Char × List Char)) (base_url : List Char),
        List.isPrefixOf ("https://".data) base_url = true →
        ∀ u ∈ encontrar_paginas_relevantes urljoinModel enlaces base_url,
          netloc u = netloc base_url ∧ (splitScheme u).isSome = true)
    ∧ encontrar_paginas_relevantes urljoinModel scenLinks ("https://uni.example.edu".data)
        = ["https://uni.example.edu/research/open-data".data]
    ∧ ("https://otherdomain.com/research".data
        ∉ encontrar_paginas_relevantes urljoinModel scenLinks ("https://uni.example.edu".data)) := by
  refine ⟨?_, by decide, by decide⟩
  intro enlaces base_url hb u hu
  obtain ⟨hnet, href, hu2⟩ := encontrar_paginas_mem urljoinModel enlaces base_url u hu
  subst hu2
  exact ⟨hnet, urljoinModel_hasScheme base_url href hb⟩

/-- Witness for claim C8: the scenario base url is https, so the theorem
applies to the scenario page. -/
theorem C8_witness :
    (List.isPrefixOf ("https://".data) ("https://uni.example.edu".data) = true)
    ∧ (∀ u ∈ encontrar_paginas_relevantes urljoinModel scenLinks ("https://uni.example.edu".data),
        netloc u = netloc ("https://uni.example.edu".data) ∧ (splitScheme u).isSome = true) :=
  ⟨by decide, C8_enlaces_mismo_dominio.1 scenLinks ("https://uni.example.edu".data) (by decide)⟩

/-! ## Words and collapse -/

theorem wordsGo_fuel : ∀ (f1 f2 : Nat) (s : List Char), s.length ≤ f1 → s.length ≤ f2 →
    wordsGo f1 s = wordsGo f2 s := by
  intro f1
  induction f1 with
  | zero =>
    intro f2 s h1 h2
    rw [List.length_eq_zero.mp (Nat.le_zero.mp h1)]
    cases f2 <;> rfl
  | succ f1 ih =>
    intro f2 s h1 h2
    cases s with
    | nil => cases f2 <;> rfl
    | cons c cs =>
      cases f2 with
      | zero => simp at h2
      | succ f2 =>
        simp only [List.length_cons] at h1 h2
        show (if isSpc c then wordsGo f1 cs
            else (c :: cs.takeWhile (fun x => !isSpc x))
              :: wordsGo f1 (cs.dropWhile (fun x => !isSpc x)))
          = (if isSpc c then wordsGo f2 cs
            else (c :: cs.takeWhile (fun x => !isSpc x))
              :: wordsGo f2 (cs.dropWhile (fun x => !isSpc x)))
        have hdw := (List.dropWhile_sublist (l := cs) (fun x => !isSpc x)).length_le
        by_cases hc : isSpc c = true
        · rw [if_pos hc, if_pos hc]
          exact ih f2 cs (by omega) (by omega)
        · rw [if_neg hc, if_neg hc]
          rw [ih f2 (cs.dropWhile (fun x => !isSpc x)) (by omega) (by omega)]

theorem words_cons_spc (c : Char) (s : List Char) (h : isSpc c = true) :
    words (c :: s) = words s := by
  unfold words
  show (if isSpc c then wordsGo s.length s
      else (c :: s.takeWhile (fun x => !isSpc x))
        :: wordsGo s.length (s.dropWhile (fun x => !isSpc x)))
    = wordsGo s.length s
  rw [if_pos h]

theorem words_cons_word (c : Char) (s : List Char) (h : isSpc c = false) :
    words (c :: s)
      = (c :: s.takeWhile (fun x => !isSpc x)) :: words (s.dropWhile (fun x => !isSpc x)) := by
  unfold words
  show (if isSpc c then wordsGo s.length s
      else (c :: s.takeWhile (fun x => !isSpc x))
        :: wordsGo s.length (s.dropWhile (fun x => !isSpc x)))
    = (c :: s.takeWhile (fun x => !isSpc x))
      :: wordsGo (s.dropWhile (fun x => !isSpc x)).length (s.dropWhile (fun x => !isSpc x))
  rw [if_neg (by simp [h])]
  have hdw := (List.dropWhile_sublist (l := s) (fun x => !isSpc x)).length_le
  rw [wordsGo_fuel s.length (s.dropWhile (fun x => !isSpc x)).length
    (s.dropWhile (fun x => !isSpc x)) (by omega) le_rfl]

theorem dropWhile_head_false (p : Char → Bool) (l : List Char) (d : Char) (r : List Char)
    (h : l.dropWhile p = d :: r) : p d = false := by
  induction l with
  | nil => simp [List.dropWhile] at h
  | cons x xs ih =>
    by_cases hx : p x = true
    · rw [List.dropWhile_cons_of_pos hx] at h
      exact ih h
    · rw [List.dropWhile_cons_of_neg hx] at h
      cases h
      exact Bool.eq_false_iff.mpr hx

theorem words_word_append (w b : List Char) (hw : w ≠ [])
    (hall : ∀ c ∈ w, isSpc c = false) :
    words (w ++ b)
      = (w ++ b.takeWhile (fun x => !isSpc x)) :: words (b.dropWhile (fun x => !isSpc x)) := by
  induction w with
  | nil => exact absurd rfl hw
  | cons c w ih =>
    have hc : isSpc c = false := hall c (List.mem_cons_self _ _)
    rw [List.cons_append, words_cons_word c (w ++ b) hc]
    by_cases hwnil : w = []
    · subst hwnil
      simp
    · have hall2 : ∀ x ∈ w, (fun x => !isSpc x) x = true := by
        intro x hx
        simp [hall x (List.mem_cons_of_mem _ hx)]
      rw [List.takeWhile_append_of_pos hall2, List.dropWhile_append_of_pos hall2]
      simp

theorem words_eq_nil_all_spc (s : List Char) (h : words s = []) :
    ∀ c ∈ s, isSpc c = true := by
  induction s with
  | nil => simp
  | cons c cs ih =>
    by_cases hc : isSpc c = true
    · rw [words_cons_spc c cs hc] at h
      intro x hx
      rcases List.mem_cons.mp hx with rfl | hx2
      · exact hc
      · exact ih h x hx2
    · rw [words_cons_word c cs (Bool.eq_false_iff.mpr hc)] at h
      cases h

theorem words_ne_nil_of_mem (s : List Char) (c : Char) (hc : c ∈ s)
    (hns : isSpc c = false) : words s ≠ [] := by
  intro h
  rw [words_eq_nil_all_spc s h c hc] at hns
  cases hns

theorem words_no_spc_aux : ∀ (n : Nat) (s : List Char), s.length ≤ n →
    ∀ w ∈ words s, w ≠ [] ∧ ∀ c ∈ w, isSpc c = false := by
  intro n
  induction n with
  | zero =>
    intro s hs
    rw [List.length_eq_zero.mp (Nat.le_zero.mp hs)]
    simp [words, wordsGo]
  | succ n ih =>
    intro s hs
    cases s with
    | nil => simp [words, wordsGo]
    | cons c cs =>
      by_cases hc : isSpc c = true
      · rw [words_cons_spc c cs hc]
        exact ih cs (by simp at hs; omega)
      · have hcf : isSpc c = false := Bool.eq_false_iff.mpr hc
        rw [words_cons_word c cs hcf]
        intro w hw
        rcases List.mem_cons.mp hw with rfl | hw2
        · refine ⟨by simp, ?_⟩
          intro x hx
          rcases List.mem_cons.mp hx with rfl | hx2
          · exact hcf
          · have := List.mem_takeWhile_imp hx2
            simpa using this
        · have hlen : (cs.dropWhile (fun x => !isSpc x)).length ≤ n := by
            have := (List.dropWhile_sublist (l := cs) (fun x => !isSpc x)).length_le
            simp at hs
            omega
          exact ih _ hlen w hw2

theorem words_no_spc (s : List Char) :
    ∀ w ∈ words s, w ≠ [] ∧ ∀ c ∈ w, isSpc c = false :=
  words_no_spc_aux s.length s le_rfl

theorem joinSp_cons_ex (x : List Char) (l : List (List Char)) :
    ∃ r, joinSp (x :: l) = x ++ r := by
  cases l with
  | nil => exact ⟨[], by simp [joinSp]⟩
  | cons y t => exact ⟨' ' :: joinSp (y :: t), rfl⟩

theorem joinSp_cons_ne (x : List Char) (l : List (List Char)) (h : l ≠ []) :
    joinSp (x :: l) = x ++ ' ' :: joinSp l := by
  cases l with
  | nil => exact absurd rfl h
  | cons y t => rfl

theorem infix_append_right_of (T y x : List Char) (h : T <:+: y) : T <:+: x ++ y := by
  obtain ⟨u, v, rfl⟩ := h
  exact ⟨x ++ u, v, by simp⟩

theorem infix_append_left_of (T y x : List Char) (h : T <:+: y) : T <:+: y ++ x := by
  obtain ⟨u, v, rfl⟩ := h
  exact ⟨u, v ++ x, by simp⟩

theorem collapse_joinSp_append (ws : List (List Char)) (b : List Char)
    (h : ∀ w ∈ ws, w ≠ [] ∧ ∀ c ∈ w, isSpc c = false) :
    ∃ r, collapse (joinSp ws ++ b) = joinSp ws ++ r := by
  induction ws with
  | nil => exact ⟨collapse b, by simp [joinSp]⟩
  | cons w ws ih =>
    obtain ⟨hwne, hwall⟩ := h w (List.mem_cons_self _ _)
    cases hws : ws with
    | nil =>
      subst hws
      have hj : joinSp [w] = w := rfl
      rw [hj]
      unfold collapse
      rw [words_word_append w b hwne hwall]
      obtain ⟨r, hr⟩ := joinSp_cons_ex (w ++ b.takeWhile (fun x => !isSpc x))
        (words (b.dropWhile (fun x => !isSpc x)))
      exact ⟨b.takeWhile (fun x => !isSpc x) ++ r, by rw [hr, List.append_assoc]⟩
    | cons w2 ws2 =>
      subst hws
      have hne : w2 :: ws2 ≠ [] := by simp
      obtain ⟨r, hr⟩ := ih (fun x hx => h x (List.mem_cons_of_mem _ hx))
      unfold collapse at hr ⊢
      rw [joinSp_cons_ne w _ hne]
      have hx : (w ++ ' ' :: joinSp (w2 :: ws2)) ++ b
          = w ++ (' ' :: (joinSp (w2 :: ws2) ++ b)) := by simp
      rw [hx, words_word_append w _ hwne hwall,
        List.takeWhile_cons_of_neg (by simp [isSpc]),
        List.dropWhile_cons_of_neg (by simp [isSpc]),
        words_cons_spc ' ' _ (by simp [isSpc])]
      have hwordsne : words (joinSp (w2 :: ws2) ++ b) ≠ [] := by
        obtain ⟨hw2ne, hw2all⟩ := h w2 (List.mem_cons_of_mem _ (List.mem_cons_self _ _))
        cases hw2c : w2 with
        | nil => exact absurd hw2c hw2ne
        | cons d w2q =>
          subst hw2c
          apply words_ne_nil_of_mem _ d _ (hw2all d (List.mem_cons_self _ _))
          apply List.mem_append_left
          obtain ⟨rr, hrr⟩ := joinSp_cons_ex (d :: w2q) ws2
          rw [hrr]
          exact List.mem_append_left _ (List.mem_cons_self _ _)
      rw [joinSp_cons_ne _ _ hwordsne, hr]
      exact ⟨r, by simp⟩

theorem collapse_length_le_aux : ∀ (n : Nat) (s : List Char), s.length ≤ n →
    (collapse s).length ≤ s.length := by
  intro n
  induction n with
  | zero =>
    intro s hs
    rw [List.length_eq_zero.mp (Nat.le_zero.mp hs)]
    simp [collapse, words, wordsGo, joinSp]
  | succ n ih =>
    intro s hs
    cases s with
    | nil => simp [collapse, words, wordsGo, joinSp]
    | cons c cs =>
      by_cases hc : isSpc c = true
      · unfold collapse
        rw [words_cons_spc c cs hc]
        have := ih cs (by simp at hs; omega)
        unfold collapse at this
        simp only [List.length_cons]
        omega
      · have hcf : isSpc c = false := Bool.eq_false_iff.mpr hc
        unfold collapse
        rw [words_cons_word c cs hcf]
        have hsplit : (cs.takeWhile (fun x => !isSpc x)).length
            + (cs.dropWhile (fun x => !isSpc x)).length = cs.length := by
          rw [← List.length_append, List.takeWhile_append_dropWhile]
        cases hsuf : cs.dropWhile (fun x => !isSpc x) with
        | nil =>
          rw [show words ([] : List Char) = [] from by simp [words, wordsGo]]
          have hj : joinSp [c :: cs.takeWhile (fun x => !isSpc x)]
              = c :: cs.takeWhile (fun x => !isSpc x) := rfl
          rw [hj]
          simp only [List.length_cons]
          rw [hsuf] at hsplit
          simp at hsplit
          omega
        | cons d q =>
          have hd : (fun x => !isSpc x) d = false := dropWhile_head_false _ cs d q hsuf
          have hdspc : isSpc d = true := by simpa using hd
          rw [words_cons_spc d q hdspc]
          cases hwq : words q with
          | nil =>
            have hj : joinSp [c :: cs.takeWhile (fun x => !isSpc x)]
                = c :: cs.takeWhile (fun x => !isSpc x) := rfl
            rw [hj]
            simp only [List.length_cons]
            rw [hsuf] at hsplit
            simp only [List.length_cons] at hsplit
            omega
          | cons w1 ws1 =>
            rw [← hwq, joinSp_cons_ne _ _ (by rw [hwq]; simp)]
            have hq : (collapse q).length ≤ q.length := by
              apply ih
              rw [hsuf] at hsplit
              simp only [List.length_cons] at hsplit
              simp at hs
              omega
            unfold collapse at hq
            rw [hsuf] at hsplit
            simp only [List.length_cons] at hsplit
            simp only [List.length_append, List.length_cons]
            omega

theorem collapse_append_of_norm (T b : List Char) (hT : NormalTermino T) :
    ∃ r, collapse (T ++ b) = T ++ r := by
  obtain ⟨hne, hj⟩ := hT
  obtain ⟨r, hr⟩ := collapse_joinSp_append (words T) b (words_no_spc T)
  rw [hj] at hr
  exact ⟨r, hr⟩

theorem normalTermino_head (T : List Char) (hT : NormalTermino T) :
    ∃ e, e ∈ T ∧ isSpc e = false := by
  obtain ⟨hne, hj⟩ := hT
  cases hwT : words T with
  | nil => exact absurd hwT hne
  | cons w1 tws =>
    obtain ⟨hw1ne, hw1all⟩ := words_no_spc T w1 (by rw [hwT]; exact List.mem_cons_self _ _)
    cases hw1 : w1 with
    | nil => exact absurd hw1 hw1ne
    | cons e w1q =>
      subst hw1
      refine ⟨e, ?_, hw1all e (List.mem_cons_self _ _)⟩
      rw [← hj, hwT]
      obtain ⟨rr, hrr⟩ := joinSp_cons_ex (e :: w1q) tws
      rw [hrr]
      exact List.mem_append_left _ (List.mem_cons_self _ _)

theorem collapse_infix_aux (T : List Char) (hT : NormalTermino T) :
    ∀ (n : Nat) (a b : List Char), a.length ≤ n → T <:+: collapse (a ++ (T ++ b)) := by
  intro n
  induction n with
  | zero =>
    intro a b ha
    rw [List.length_eq_zero.mp (Nat.le_zero.mp ha), List.nil_append]
    obtain ⟨r, hr⟩ := collapse_append_of_norm T b hT
    exact ⟨[], r, by rw [hr]; simp⟩
  | succ n ih =>
    intro a b ha
    cases a with
    | nil =>
      rw [List.nil_append]
      obtain ⟨r, hr⟩ := collapse_append_of_norm T b hT
      exact ⟨[], r, by rw [hr]; simp⟩
    | cons c a2 =>
      simp only [List.length_cons] at ha
      by_cases hc : isSpc c = true
      · rw [List.cons_append]
        unfold collapse
        rw [words_cons_spc c _ hc]
        exact ih a2 b (by omega)
      · have hcf : isSpc c = false := Bool.eq_false_iff.mpr hc
        obtain ⟨e, heT, hens⟩ := normalTermino_head T hT
        cases hq : a2.dropWhile (fun x => !isSpc x) with
        | cons d q2 =>
          -- a2 contains whitespace: split there
          have ha2 : a2 = a2.takeWhile (fun x => !isSpc x) ++ (d :: q2) := by
            rw [← hq, List.takeWhile_append_dropWhile]
          have hdspc : isSpc d = true := by
            have := dropWhile_head_false _ a2 d q2 hq
            simpa using this
          have hlist : (c :: a2) ++ (T ++ b)
              = (c :: a2.takeWhile (fun x => !isSpc x)) ++ (d :: (q2 ++ (T ++ b))) := by
            conv_lhs => rw [ha2]
            simp
          rw [hlist]
          unfold collapse
          rw [words_word_append (c :: a2.takeWhile (fun x => !isSpc x)) _ (by simp) ?hall]
          case hall =>
            intro x hx
            rcases List.mem_cons.mp hx with rfl | hx2
            · exact hcf
            · have := List.mem_takeWhile_imp hx2
              simpa using this
          rw [List.takeWhile_cons_of_neg (by simp [hdspc]),
            List.dropWhile_cons_of_neg (by simp [hdspc]),
            words_cons_spc d _ hdspc]
          have hlen : q2.length ≤ n := by
            have := congrArg List.length ha2
            simp only [List.length_append, List.length_cons] at this
            omega
          have hinner := ih q2 b hlen
          have hwne : words (q2 ++ (T ++ b)) ≠ [] := by
            apply words_ne_nil_of_mem _ e _ hens
            exact List.mem_append_right _ (List.mem_append_left _ heT)
          rw [joinSp_cons_ne _ _ hwne]
          unfold collapse at hinner
          apply infix_append_right_of
          rw [show (' ' :: joinSp (words (q2 ++ (T ++ b))))
              = [' '] ++ joinSp (words (q2 ++ (T ++ b))) from rfl]
          exact infix_append_right_of _ _ _ hinner
        | nil =>
          -- a2 is all nonspace
          have ha2all : ∀ x ∈ a2, isSpc x = false := by
            have heq : a2.takeWhile (fun x => !isSpc x) = a2 := by
              conv_rhs => rw [← List.takeWhile_append_dropWhile (fun x => !isSpc x) a2, hq]
              simp
            intro x hx
            rw [← heq] at hx
            have := List.mem_takeWhile_imp hx
            simpa using this
          obtain ⟨hTne, hTj⟩ := hT
          cases hwT : words T with
          | nil => exact absurd hwT hTne
          | cons w1 tws =>
            obtain ⟨hw1ne, hw1all⟩ := words_no_spc T w1 (by rw [hwT]; exact List.mem_cons_self _ _)
            cases tws with
            | nil =>
              -- T is the single word w1
              have hTw : T = w1 := by rw [← hTj, hwT]; rfl
              have hlist : (c :: a2) ++ (T ++ b) = (c :: (a2 ++ T)) ++ b := by simp
              rw [hlist]
              unfold collapse
              rw [words_word_append (c :: (a2 ++ T)) b (by simp) ?hall2]
              case hall2 =>
                intro x hx
                rcases List.mem_cons.mp hx with rfl | hx2
                · exact hcf
                · rcases List.mem_append.mp hx2 with hx3 | hx3
                  · exact ha2all x hx3
                  · rw [hTw] at hx3
                    exact hw1all x hx3
              obtain ⟨r, hr⟩ := joinSp_cons_ex
                ((c :: (a2 ++ T)) ++ b.takeWhile (fun x => !isSpc x))
                (words (b.dropWhile (fun x => !isSpc x)))
              rw [hr]
              exact ⟨c :: a2, b.takeWhile (fun x => !isSpc x) ++ r, by simp⟩
            | cons w2 tws2 =>
              -- T = w1, space, then the rest
              have hTw : T = w1 ++ ' ' :: joinSp (w2 :: tws2) := by
                rw [← hTj, hwT, joinSp_cons_ne _ _ (by simp)]
              have hlist : (c :: a2) ++ (T ++ b)
                  = (c :: (a2 ++ w1)) ++ (' ' :: (joinSp (w2 :: tws2) ++ b)) := by
                conv_lhs => rw [hTw]
                simp
              rw [hlist]
              unfold collapse
              rw [words_word_append (c :: (a2 ++ w1)) _ (by simp) ?hall3]
              case hall3 =>
                intro x hx
                rcases List.mem_cons.mp hx with rfl | hx2
                · exact hcf
                · rcases List.mem_append.mp hx2 with hx3 | hx3
                  · exact ha2all x hx3
                  · exact hw1all x hx3
              rw [List.takeWhile_cons_of_neg (by simp [isSpc]),
                List.dropWhile_cons_of_neg (by simp [isSpc]),
                words_cons_spc ' ' _ (by simp [isSpc])]
              have hsub : ∀ w ∈ w2 :: tws2, w ≠ [] ∧ ∀ c ∈ w, isSpc c = false := by
                intro w hw
                exact words_no_spc T w (by rw [hwT]; exact List.mem_cons_of_mem _ hw)
              obtain ⟨r, hr⟩ := collapse_joinSp_append (w2 :: tws2) b hsub
              have hYne : words (joinSp (w2 :: tws2) ++ b) ≠ [] := by
                obtain ⟨hw2ne, hw2all⟩ := words_no_spc T w2
                  (by rw [hwT]; exact List.mem_cons_of_mem _ (List.mem_cons_self _ _))
                cases hw2c : w2 with
                | nil => exact absurd hw2c hw2ne
                | cons e2 w2q =>
                  subst hw2c
                  apply words_ne_nil_of_mem _ e2 _ (hw2all e2 (List.mem_cons_self _ _))
                  apply List.mem_append_left
                  obtain ⟨rr, hrr⟩ := joinSp_cons_ex (e2 :: w2q) tws2
                  rw [hrr]
                  exact List.mem_append_left _ (List.mem_cons_self _ _)
              rw [joinSp_cons_ne _ _ hYne]
              unfold collapse at hr
              rw [hr]
              refine ⟨c :: a2, r, ?_⟩
              rw [hTw]
              simp

theorem collapse_infix_of_norm (T s : List Char) (hT : NormalTermino T)
    (h : T <:+: s) : T <:+: collapse s := by
  obtain ⟨a, b, rfl⟩ := h
  rw [List.append_assoc]
  exact collapse_infix_aux T hT a.length a b le_rfl

/-! ## The context window -/

theorem contextoRaw_spec (s t : List Char) (h : occPositions s t ≠ []) :
    t <:+: contextoRaw s t ∧ contextoRaw s t <:+: s
    ∧ (contextoRaw s t).length ≤ t.length + 200 := by
  cases heq : occPositions s t with
  | nil => exact absurd heq h
  | cons j0 rest =>
    have hpw : List.Pairwise (fun a b => a < b) (occPositions s t) :=
      List.Pairwise.filter _ (List.pairwise_lt_range _)
    rw [heq] at hpw
    have hrest : ∀ y ∈ rest, j0 < y := (List.pairwise_cons.mp hpw).1
    have hj0 : j0 ∈ occPositions s t := by rw [heq]; exact List.mem_cons_self _ _
    obtain ⟨hj0lt, hj0pre⟩ := (mem_occPositions s t j0).mp hj0
    have hctx : contextoRaw s t
        = (s.take ((((j0 :: rest).filter (fun j => j ≤ (j0 - 100) + 100)).getLast?.getD j0)
            + t.length + 100)).drop (j0 - 100) := by
      unfold contextoRaw
      rw [heq]
    have hj0F : j0 ∈ (j0 :: rest).filter (fun j => j ≤ (j0 - 100) + 100) := by
      rw [List.mem_filter]
      refine ⟨List.mem_cons_self _ _, by simp; omega⟩
    have hFne : (j0 :: rest).filter (fun j => j ≤ (j0 - 100) + 100) ≠ [] :=
      List.ne_nil_of_mem hj0F
    have hlast : (((j0 :: rest).filter (fun j => j ≤ (j0 - 100) + 100)).getLast?.getD j0)
        = ((j0 :: rest).filter (fun j => j ≤ (j0 - 100) + 100)).getLast hFne := by
      rw [List.getLast?_eq_getLast _ hFne]
      rfl
    have hjpF := List.getLast_mem hFne
    obtain ⟨hjpmem, hjple⟩ := List.mem_filter.mp hjpF
    have hjple2 : ((j0 :: rest).filter (fun j => j ≤ (j0 - 100) + 100)).getLast hFne
        ≤ (j0 - 100) + 100 := by simpa using hjple
    have hjpge : j0 ≤ ((j0 :: rest).filter (fun j => j ≤ (j0 - 100) + 100)).getLast hFne := by
      rcases List.mem_cons.mp hjpmem with hcase | hcase
      · omega
      · exact Nat.le_of_lt (hrest _ hcase)
    have hjpocc : ((j0 :: rest).filter (fun j => j ≤ (j0 - 100) + 100)).getLast hFne
        ∈ occPositions s t := by
      rw [heq]
      exact hjpmem
    obtain ⟨hjplt, hjppre⟩ := (mem_occPositions s t _).mp hjpocc
    rw [hctx, hlast]
    set jp := ((j0 :: rest).filter (fun j => j ≤ (j0 - 100) + 100)).getLast hFne with hjp
    set i := j0 - 100 with hidef
    have hij : i ≤ jp := by omega
    constructor
    · -- t sits inside the window
      rw [List.drop_take]
      have hd : t <+: (s.drop i).drop (jp - i) := by
        rw [List.drop_drop]
        have : i + (jp - i) = jp := by omega
        rw [this]
        exact hjppre
      have hsplit : (s.drop i).take (jp + t.length + 100 - i)
          = (s.drop i).take (jp - i)
            ++ ((s.drop i).drop (jp - i)).take (jp + t.length + 100 - i - (jp - i)) := by
        rw [← List.take_add]
        congr 1
        omega
      rw [hsplit]
      have hpre2 : t <+: ((s.drop i).drop (jp - i)).take (jp + t.length + 100 - i - (jp - i)) := by
        rw [List.prefix_take_iff]
        exact ⟨hd, by omega⟩
      obtain ⟨u, hu⟩ := hpre2
      rw [← hu]
      exact ⟨(s.drop i).take (jp - i), u, by rw [List.append_assoc]⟩
    constructor
    · -- the window is inside s
      refine ⟨(s.take (jp + t.length + 100)).take i, s.drop (jp + t.length + 100), ?_⟩
      rw [List.take_append_drop, List.take_append_drop]
    · -- length bound
      simp only [List.length_drop, List.length_take]
      have := Nat.min_le_left (jp + t.length + 100) s.length
      omega

theorem replaceNlTab_infix (t w : List Char) (h : t <:+: w)
    (ht : ∀ c ∈ t, c ≠ '\n' ∧ c ≠ '\t') : t <:+: replaceNlTab w := by
  obtain ⟨a, b, rfl⟩ := h
  have hsame : replaceNlTab t = t := by
    unfold replaceNlTab
    rw [List.map_map]
    have : ∀ c ∈ t, ((fun c => if c = '\t' then ' ' else c) ∘ fun c => if c = '\n' then ' ' else c) c
        = id c := by
      intro c hc
      obtain ⟨h1, h2⟩ := ht c hc
      simp [h1, h2]
    rw [List.map_congr_left this, List.map_id]
  have hall : replaceNlTab (a ++ t ++ b) = replaceNlTab a ++ t ++ replaceNlTab b := by
    unfold replaceNlTab
    simp only [List.map_append]
    unfold replaceNlTab at hsame
    rw [hsame]
  rw [hall]
  exact ⟨replaceNlTab a, replaceNlTab b, rfl⟩

theorem replaceNlTab_length (w : List Char) : (replaceNlTab w).length = w.length := by
  simp [replaceNlTab]

theorem collapse_length_le (s : List Char) : (collapse s).length ≤ s.length :=
  collapse_length_le_aux s.length s le_rfl

theorem mem_joinSp (ws : List (List Char)) (c : Char) (hc : c ∈ joinSp ws) :
    c = ' ' ∨ ∃ w ∈ ws, c ∈ w := by
  induction ws with
  | nil => simp [joinSp] at hc
  | cons w t ih =>
    cases t with
    | nil =>
      right
      exact ⟨w, List.mem_cons_self _ _, by simpa [joinSp] using hc⟩
    | cons w2 t2 =>
      rw [joinSp_cons_ne _ _ (by simp)] at hc
      rcases List.mem_append.mp hc with h1 | h2
      · right
        exact ⟨w, List.mem_cons_self _ _, h1⟩
      · rcases List.mem_cons.mp h2 with rfl | h3
        · left
          rfl
        · rcases ih h3 with h4 | ⟨w3, hw3, hcw3⟩
          · left
            exact h4
          · right
            exact ⟨w3, List.mem_cons_of_mem _ hw3, hcw3⟩

theorem normalTermino_no_nl (T : List Char) (hT : NormalTermino T) :
    ∀ c ∈ T, c ≠ '\n' ∧ c ≠ '\t' := by
  obtain ⟨hne, hj⟩ := hT
  intro c hc
  rw [← hj] at hc
  rcases mem_joinSp _ c hc with rfl | ⟨w, hw, hcw⟩
  · exact ⟨by decide, by decide⟩
  · have := (words_no_spc T w hw).2 c hcw
    constructor
    · intro hcn
      rw [hcn] at this
      simp [isSpc] at this
    · intro hcn
      rw [hcn] at this
      simp [isSpc] at this

theorem normalTermino_ne_nil (T : List Char) (hT : NormalTermino T) : T ≠ [] := by
  obtain ⟨hne, hj⟩ := hT
  cases hwT : words T with
  | nil => exact absurd hwT hne
  | cons w1 tws =>
    obtain ⟨hw1ne, -⟩ := words_no_spc T w1 (by rw [hwT]; exact List.mem_cons_self _ _)
    obtain ⟨rr, hrr⟩ := joinSp_cons_ex w1 tws
    intro hTnil
    rw [← hj, hwT, hrr] at hTnil
    exact hw1ne (List.append_eq_nil.mp hTnil).1

/-! ## Claims C5 and C6 -/

theorem buscar_map_termino (texto : List Char) (terminos : List (List Char)) :
    (buscar_terminos_en_texto texto terminos).map TermHit.termino
      = terminos.filter
          (fun t => decide (occPositions (texto.map lowerChar) (t.map lowerChar) ≠ [])) := by
  unfold buscar_terminos_en_texto
  induction terminos with
  | nil => rfl
  | cons t ts ih =>
    by_cases hp : occPositions (texto.map lowerChar) (t.map lowerChar) ≠ []
    · rw [List.filterMap_cons_some (by rw [if_pos hp]), List.map_cons, ih,
        List.filter_cons_of_pos (by simpa using hp)]
    · rw [List.filterMap_cons_none (by rw [if_neg hp]), ih,
        List.filter_cons_of_neg (by simpa using hp)]

theorem buscar_mem_spec (texto : List Char) (terminos : List (List Char)) (hit : TermHit)
    (h : hit ∈ buscar_terminos_en_texto texto terminos) :
    hit.termino ∈ terminos
    ∧ occPositions (texto.map lowerChar) (hit.termino.map lowerChar) ≠ []
    ∧ hit.contexto
        = (if 300 < (collapse (replaceNlTab
              (contextoRaw (texto.map lowerChar) (hit.termino.map lowerChar)))).length
           then (collapse (replaceNlTab
              (contextoRaw (texto.map lowerChar) (hit.termino.map lowerChar)))).take 300
              ++ ['.', '.', '.']
           else collapse (replaceNlTab
              (contextoRaw (texto.map lowerChar) (hit.termino.map lowerChar)))) := by
  unfold buscar_terminos_en_texto at h
  obtain ⟨a, ha, hfa⟩ := List.mem_filterMap.mp h
  by_cases hp : occPositions (texto.map lowerChar) (a.map lowerChar) ≠ []
  · rw [if_pos hp] at hfa
    have hval := Option.some.inj hfa
    have hterm : hit.termino = a := by rw [← hval]
    have hctx : hit.contexto
        = (if 300 < (collapse (replaceNlTab
              (contextoRaw (texto.map lowerChar) (a.map lowerChar)))).length
           then (collapse (replaceNlTab
              (contextoRaw (texto.map lowerChar) (a.map lowerChar)))).take 300 ++ ['.', '.', '.']
           else collapse (replaceNlTab (contextoRaw (texto.map lowerChar) (a.map lowerChar)))) := by
      rw [← hval]
    rw [hterm]
    exact ⟨ha, hp, hctx⟩
  · rw [if_neg hp] at hfa
    cases hfa

/-- Counterexample to claim C5: the term política científica occurs
verbatim in the corpus, but because the diplomacia_cientifica validation
list holds that term three times (Español, Catalán and Portugués entries),
the hit list carries it three times, not exactly once, and the score —
the hit-list length — is three, not the number of distinct matched
terms. -/
theorem C5_counterexample :
    ((buscar_terminos_en_texto ("política científica".data)
        (terminos_validacion Categoria.diplomacia_cientifica)).map TermHit.termino)
      = ["política científica".data, "política científica".data, "política científica".data]
    ∧ (buscar_terminos_en_texto ("política científica".data)
        (terminos_validacion Categoria.diplomacia_cientifica)).length = 3 := by
  refine ⟨by decide, by decide⟩

/-- Claim C5 as amended: for every corpus, every entry of the term list
whose term occurs (case-insensitively) in the corpus contributes exactly
one hit, in list order — so a term duplicated in the catalog produces one
hit per duplicate and the score counts list entries, not distinct terms —
and every hit carries a non-empty context containing its term.  The
hypotheses hold for all three validation vocabularies: terms are
lowercase, whitespace-normal and at most 100 characters long. -/
theorem C5_amended (texto : List Char) (terminos : List (List Char))
    (hA : ∀ t ∈ terminos, t.map lowerChar = t ∧ NormalTermino t ∧ t.length ≤ 100) :
    ((buscar_terminos_en_texto texto terminos).map TermHit.termino
      = terminos.filter
          (fun t => decide (occPositions (texto.map lowerChar) (t.map lowerChar) ≠ [])))
    ∧ ∀ hit ∈ buscar_terminos_en_texto texto terminos,
        hit.contexto ≠ [] ∧ hit.termino <:+: hit.contexto := by
  refine ⟨buscar_map_termino texto terminos, ?_⟩
  intro hit hh
  obtain ⟨hmem, hocc, hctx⟩ := buscar_mem_spec texto terminos hit hh
  obtain ⟨hlow, hnorm, hlen⟩ := hA hit.termino hmem
  obtain ⟨hwin, hwins, hwinlen⟩ := contextoRaw_spec (texto.map lowerChar) (hit.termino.map lowerChar) hocc
  have hcl : (collapse (replaceNlTab
      (contextoRaw (texto.map lowerChar) (hit.termino.map lowerChar)))).length ≤ 300 := by
    have h1 := collapse_length_le (replaceNlTab
      (contextoRaw (texto.map lowerChar) (hit.termino.map lowerChar)))
    rw [replaceNlTab_length] at h1
    have h2 : (hit.termino.map lowerChar).length = hit.termino.length := by simp
    omega
  have hlow2 : hit.termino.map lowerChar = hit.termino := hlow
  rw [if_neg (by omega)] at hctx
  rw [hlow2] at hwin hctx
  have h2 : hit.termino <:+: replaceNlTab
      (contextoRaw (texto.map lowerChar) hit.termino) :=
    replaceNlTab_infix _ _ hwin (normalTermino_no_nl _ hnorm)
  have h3 : hit.termino <:+: collapse (replaceNlTab
      (contextoRaw (texto.map lowerChar) hit.termino)) :=
    collapse_infix_of_norm _ _ hnorm h2
  rw [← hctx] at h3
  refine ⟨?_, h3⟩
  intro hnil
  rw [hnil] at h3
  exact normalTermino_ne_nil _ hnorm (List.eq_nil_of_infix_nil h3)

/-- Witness for the amended claim C5: the ciencia_abierta vocabulary
satisfies the hypotheses, scanned over the corpus of end-to-end
scenario 1. -/
theorem C5_amended_witness :
    (∀ t ∈ terminos_validacion Categoria.ciencia_abierta,
        t.map lowerChar = t ∧ NormalTermino t ∧ t.length ≤ 100)
    ∧ (((buscar_terminos_en_texto ("Our university promotes open science and open data.".data)
          (terminos_validacion Categoria.ciencia_abierta)).map TermHit.termino
        = (terminos_validacion Categoria.ciencia_abierta).filter
            (fun t => decide (occPositions
              ("Our university promotes open science and open data.".data.map lowerChar)
              (t.map lowerChar) ≠ [])))
      ∧ ∀ hit ∈ buscar_terminos_en_texto
            ("Our university promotes open science and open data.".data)
            (terminos_validacion Categoria.ciencia_abierta),
          hit.contexto ≠ [] ∧ hit.termino <:+: hit.contexto) :=
  ⟨by decide, C5_amended ("Our university promotes open science and open data.".data)
    (terminos_validacion Categoria.ciencia_abierta) (by decide)⟩

/-- Counterexample to claim C6: with 110 characters available before the
match, the extracted context keeps only 100 of them (103 characters in
total), not the 120 the claim describes; a 120-character window would have
kept all 110 and produced 113 characters. -/
theorem C6_counterexample :
    ((buscar_terminos_en_texto (List.replicate 110 'a' ++ "zzz".data) ["zzz".data]).map
        TermHit.contexto)
      = [List.replicate 100 'a' ++ "zzz".data]
    ∧ (List.replicate 100 'a' ++ "zzz".data).length = 103
    ∧ (List.replicate 110 'a' ++ "zzz".data).length = 113 := by
  refine ⟨by decide, by decide, by decide⟩

/-- Claim C6 as amended: for terms of at most 100 characters (all catalog
terms are), every hit context is the whitespace-collapse of a window of
the lowered corpus spanning at most 100 characters before and 100 after
an occurrence of the lowered term, so at most the term length plus 200
characters; the collapsed context never exceeds 300 characters, the
truncation threshold of the code (300 with a three-dot ellipsis, not
240). -/
theorem C6_amended (texto : List Char) (terminos : List (List Char))
    (hL : ∀ t ∈ terminos, t.length ≤ 100) :
    ∀ hit ∈ buscar_terminos_en_texto texto terminos,
      ∃ w, w <:+: texto.map lowerChar
        ∧ (hit.termino.map lowerChar) <:+: w
        ∧ w.length ≤ hit.termino.length + 200
        ∧ hit.contexto = collapse (replaceNlTab w)
        ∧ hit.contexto.length ≤ 300 := by
  intro hit hh
  obtain ⟨hmem, hocc, hctx⟩ := buscar_mem_spec texto terminos hit hh
  have hlen := hL hit.termino hmem
  obtain ⟨hwin, hwins, hwinlen⟩ :=
    contextoRaw_spec (texto.map lowerChar) (hit.termino.map lowerChar) hocc
  have hmaplen : (hit.termino.map lowerChar).length = hit.termino.length := by simp
  have hcl : (collapse (replaceNlTab
      (contextoRaw (texto.map lowerChar) (hit.termino.map lowerChar)))).length ≤ 300 := by
    have h1 := collapse_length_le (replaceNlTab
      (contextoRaw (texto.map lowerChar) (hit.termino.map lowerChar)))
    rw [replaceNlTab_length] at h1
    omega
  rw [if_neg (by omega)] at hctx
  refine ⟨contextoRaw (texto.map lowerChar) (hit.termino.map lowerChar),
    hwins, hwin, by omega, hctx, ?_⟩
  rw [hctx]
  exact hcl

/-- Witness for the amended claim C6: the ciencia_abierta vocabulary has
no term longer than 100 characters, so the theorem applies to the corpus
of end-to-end scenario 1. -/
theorem C6_amended_witness :
    (∀ t ∈ terminos_validacion Categoria.ciencia_abierta, t.length ≤ 100)
    ∧ (∀ hit ∈ buscar_terminos_en_texto
          ("Our university promotes open science and open data.".data)
          (terminos_validacion Categoria.ciencia_abierta),
        ∃ w, w <:+: ("Our university promotes open science and open data.".data.map lowerChar)
          ∧ (hit.termino.map lowerChar) <:+: w
          ∧ w.length ≤ hit.termino.length + 200
          ∧ hit.contexto = collapse (replaceNlTab w)
          ∧ hit.contexto.length ≤ 300) :=
  ⟨by decide, C6_amended ("Our university promotes open science and open data.".data)
    (terminos_validacion Categoria.ciencia_abierta) (by decide)⟩
